import Mathlib

/-!
# Verification of the pybel `BELGraph` data model and `left_full_merge`

This file shallowly embeds `src/pybel/graph.py` (a subclass of
`networkx.MultiDiGraph`) in Lean 4.  Python dictionaries are modelled as
insertion-ordered association lists (`List (K × V)`): this matches CPython
dict semantics, where insertion order is preserved, keys are unique and
`d[k] = v` keeps the original position of an existing key.  Python dict
equality (`==`), which ignores insertion order, is modelled by the
executable extensional test `attrsEq` below.  All definitions are
computable so they can be evaluated on concrete graphs.
-/

set_option maxHeartbeats 1600000

/-! ## Python dictionaries as insertion-ordered association lists -/

/-- `dictGet d k` is Python `d[k]` (as an `Option`): the value stored at the
first occurrence of key `k`, or `none` when `k` is absent (`KeyError`). -/
def dictGet {K V : Type} [DecidableEq K] : List (K × V) → K → Option V
  | [], _ => none
  | (k', v') :: t, k => if k = k' then some v' else dictGet t k

/-- `dictHas d k` is Python `k in d`. -/
def dictHas {K V : Type} [DecidableEq K] (d : List (K × V)) (k : K) : Bool :=
  (dictGet d k).isSome

/-- `dictSet d k v` is Python `d[k] = v`: replaces the value at the first
occurrence of `k` in place (keeping its position), or appends `(k, v)` when
`k` is absent. -/
def dictSet {K V : Type} [DecidableEq K] : List (K × V) → K → V → List (K × V)
  | [], k, v => [(k, v)]
  | (k', v') :: t, k, v => if k = k' then (k, v) :: t else (k', v') :: dictSet t k v

/-- `dictUpd d e` is Python `d.update(e)`: sets every binding of `e` in `d`,
in `e`'s iteration order. -/
def dictUpd {K V : Type} [DecidableEq K] (d e : List (K × V)) : List (K × V) :=
  e.foldl (fun acc kv => dictSet acc kv.1 kv.2) d

/-- `dictModify d k f` rewrites the value stored at key `k` in place (used to
model in-place mutation of a value reached through `d[k]`). -/
def dictModify {K V : Type} [DecidableEq K] (d : List (K × V)) (k : K) (f : V → V) :
    List (K × V) :=
  d.map (fun kv => if kv.1 = k then (kv.1, f kv.2) else kv)

/-- Number of entries of a dictionary carrying key `k` (1 for real Python
dicts that contain `k`; the association-list model makes this countable). -/
def countKey {K V : Type} [DecidableEq K] (d : List (K × V)) (k : K) : Nat :=
  (d.filter (fun kv => decide (kv.1 = k))).length

/-- The keys of a dictionary, in insertion order. -/
def dictKeys {K V : Type} (d : List (K × V)) : List K := d.map Prod.fst

/-- Well-formedness of an association list as a Python dict: keys are
pairwise distinct.  Every dictionary reachable in CPython satisfies this. -/
def dictNodup {K V : Type} [DecidableEq K] : List (K × V) → Bool
  | [] => true
  | (k, _) :: t => !(dictHas t k) && dictNodup t

/-! ## Attribute values

Attribute values appearing on pybel nodes, edges, graph metadata and warning
contexts: strings, integers, and (one level of) string-valued dictionaries
(e.g. the `annotations` dict of an edge, which is `{}` for unqualified
edges).  This is the value universe the claims exercise. -/

inductive Value : Type where
  | vstr : String → Value
  | vint : Int → Value
  | vdict : List (String × String) → Value
deriving DecidableEq, Repr

/-- Python `==` on two flat string dictionaries: same keys, equal values,
insertion order ignored. -/
def flatDictEq (a b : List (String × String)) : Bool :=
  a.all (fun kv => decide (dictGet b kv.1 = some kv.2)) &&
    b.all (fun kv => decide (dictGet a kv.1 = some kv.2))

/-- Python `==` on attribute values. -/
def valueEq : Value → Value → Bool
  | .vstr a, .vstr b => decide (a = b)
  | .vint a, .vint b => decide (a = b)
  | .vdict a, .vdict b => flatDictEq a b
  | _, _ => false

/-- An attribute dictionary (Python dict mapping string keys to values). -/
abbrev Attrs := List (String × Value)

/-- Python `==` on attribute dictionaries: key sets agree and the values at
each key are `==`; insertion order is ignored.  This is the comparison
`d == gd` performed by `left_full_merge`'s duplicate detection. -/
def attrsEq (a b : Attrs) : Bool :=
  (a.all fun kv => match dictGet b kv.1 with
    | some v => valueEq kv.2 v
    | none => false) &&
  (b.all fun kv => match dictGet a kv.1 with
    | some v => valueEq kv.2 v
    | none => false)

/-- A value is well-formed when any dictionary inside it has distinct keys
(always true of real Python values). -/
def valueWf : Value → Bool
  | .vdict d => dictNodup d
  | _ => true

/-- An attribute dictionary is well-formed when its keys are distinct and
its values are well-formed (always true of real Python dicts). -/
def attrsWf (d : Attrs) : Bool :=
  dictNodup d && d.all (fun kv => valueWf kv.2)

/-! ## Constants (from `pybel/constants.py`, which only `src/pybel/graph.py`
imports; the string values are irrelevant to the claims, only their
distinctness matters). -/

def RELATION : String := "relation"
def ANNOTATIONS : String := "annotations"
def CITATION : String := "citation"
def EVIDENCE : String := "evidence"
def FUNCTION : String := "function"
def NAMESPACE : String := "namespace"
def NAME : String := "name"
def LABEL : String := "label"
def DESCRIPTION : String := "description"
def GRAPH_METADATA : String := "document_metadata"
def GRAPH_PYBEL_VERSION : String := "pybel_version"
def GRAPH_NAMESPACE_URL : String := "namespace_url"
def GRAPH_NAMESPACE_OWL : String := "namespace_owl"
def GRAPH_NAMESPACE_PATTERN : String := "namespace_pattern"
def GRAPH_ANNOTATION_URL : String := "annotation_url"
def GRAPH_ANNOTATION_OWL : String := "annotation_owl"
def GRAPH_ANNOTATION_PATTERN : String := "annotation_pattern"
def GRAPH_ANNOTATION_LIST : String := "annotation_list"

/-- Modelled from the spec: `pybel.utils.get_version` (not under `src/`);
the concrete version string is irrelevant to every claim. -/
def get_version : String := "0.9.4"

/-! ## The graph data model

A BEL node is a tuple `(function, namespace, name)` (see
`BELGraph.add_simple_node`).  Edge keys are Python ints: negative keys are
reserved for unqualified edges, non-negative keys are assigned to qualified
edges by networkx. -/

abbrev BELNode := String × String × String

/-- The data networkx stores for one node: its attribute dict
(`self.node[n]`) and its successor adjacency (`self.adj[n]`, a dict from
neighbour to a keyed dict of edge-attribute dicts).  networkx keeps these
in separate dicts whose key sets always coincide; fusing them makes that
invariant structural.  The redundant predecessor mirror `self.pred` is
derived data and is not modelled. -/
structure NodeData : Type where
  attrs : Attrs
  succ : List (BELNode × List (Int × Attrs))
deriving DecidableEq, Repr

/-- The `BELGraph` state: nodes with their attribute and adjacency data
(insertion ordered, as in networkx), the graph-level metadata dict
`self.graph`, the warning log `self._warnings` (4-tuples of line number,
line text, exception text, context dict), and the `has_singleton_terms`
flag set by `__init__`. -/
structure BELGraph : Type where
  nodes : List (BELNode × NodeData)
  graphAttrs : List (String × Value)
  warnings : List (Nat × String × String × Attrs)
  hasSingletonTerms : Bool
deriving DecidableEq, Repr

/-- Python `n in g` (networkx `__contains__`: membership in `self.node`). -/
def BELGraph.containsNode (g : BELGraph) (n : BELNode) : Bool :=
  dictHas g.nodes n

/-- `g.node[n]` as an `Option` (`none` models the `KeyError`). -/
def BELGraph.nodeAttrs (g : BELGraph) (n : BELNode) : Option Attrs :=
  (dictGet g.nodes n).map NodeData.attrs

/-- `g.edge[u]`, the successor dict of `u`; `[]` when `u` is untracked
(Python raises `KeyError` there; every access in the embedded code happens
when `u` is tracked). -/
def BELGraph.succOf (g : BELGraph) (u : BELNode) : List (BELNode × List (Int × Attrs)) :=
  ((dictGet g.nodes u).map NodeData.succ).getD []

/-- `g.edge[u][v]`, the keyed edge dict between `u` and `v` (`[]` when
absent). -/
def BELGraph.keydictOf (g : BELGraph) (u v : BELNode) : List (Int × Attrs) :=
  (dictGet (g.succOf u) v).getD []

/-- `g.edge[u][v][k]` as an `Option` (`none` models the `KeyError` at any
level of the chain). -/
def BELGraph.edgeData (g : BELGraph) (u v : BELNode) (k : Int) : Option Attrs :=
  dictGet (g.keydictOf u v) k

/-- networkx `MultiDiGraph.has_edge(u, v, key)`. -/
def BELGraph.has_edge (g : BELGraph) (u v : BELNode) (k : Int) : Bool :=
  (g.edgeData u v k).isSome

/-! ## networkx mutation primitives (networkx 1.x `MultiDiGraph`) -/

/-- networkx `add_node(n, attr_dict=...)`: a fresh node stores the attribute
dict (and an empty adjacency); an existing node has its attribute dict
updated in place. -/
def BELGraph.add_node (g : BELGraph) (n : BELNode) (attrDict : Attrs) : BELGraph :=
  if g.containsNode n then
    { g with nodes := dictModify g.nodes n (fun nd => ⟨dictUpd nd.attrs attrDict, nd.succ⟩) }
  else
    { g with nodes := dictSet g.nodes n ⟨attrDict, []⟩ }

/-- One step of networkx's fresh-key search `while key in keydict: key += 1`,
with explicit fuel (the loop always terminates within `kd.length + 1`
probes, see `freshKeyAux_spec`). -/
def freshKeyAux (kd : List (Int × Attrs)) : Nat → Int → Int
  | 0, k => k
  | fuel + 1, k => if dictHas kd k then freshKeyAux kd fuel (k + 1) else k

/-- networkx's fresh edge key for an existing keyed dict:
`key = len(keydict); while key in keydict: key += 1`. -/
def freshKey (kd : List (Int × Attrs)) : Int :=
  freshKeyAux kd (kd.length + 1) (Int.ofNat kd.length)

/-- networkx `add_edge`'s node bootstrap
(`if n not in self.succ: self.succ[n] = {}; ...; self.node[n] = {}`). -/
def ensureNode (g : BELGraph) (n : BELNode) : BELGraph :=
  if g.containsNode n then g
  else { g with nodes := dictSet g.nodes n ⟨[], []⟩ }

/-- networkx `MultiDiGraph.add_edge(u, v, key=key?, attr_dict=attrDict)`:
endpoints are created if untracked; with an existing keyed dict the key is
`key?` or a fresh non-negative key, and the data dict at that key is
updated in place (created as a copy of `attrDict` when the key is new);
with no edge yet between `u` and `v` the keyed dict `{k: dict(attrDict)}`
is installed (key `0` when `key?` is `None`).  `addEdgeCore` is the part of
`add_edge` after the endpoint bootstrap, with `kd?` standing for the keyed
dict already between `u` and `v` (the scrutinee of `if v in self.succ[u]`). -/
def addEdgeCore (g2 : BELGraph) (u v : BELNode) (kd? : Option (List (Int × Attrs)))
    (key? : Option Int) (attrDict : Attrs) : BELGraph :=
  match kd? with
  | some keydict =>
      let k := key?.getD (freshKey keydict)
      let datadict := dictUpd ((dictGet keydict k).getD []) attrDict
      let newNodes := dictModify g2.nodes u
        (fun nd => ⟨nd.attrs, dictSet nd.succ v (dictSet keydict k datadict)⟩)
      { g2 with nodes := newNodes }
  | none =>
      let k := key?.getD 0
      let newNodes := dictModify g2.nodes u
        (fun nd => ⟨nd.attrs, dictSet nd.succ v [(k, dictUpd [] attrDict)]⟩)
      { g2 with nodes := newNodes }

def BELGraph.add_edge (g : BELGraph) (u v : BELNode) (key? : Option Int)
    (attrDict : Attrs) : BELGraph :=
  let g2 := ensureNode (ensureNode g u) v
  addEdgeCore g2 u v (dictGet (g2.succOf u) v) key? attrDict

/-! ## BELGraph methods (`src/pybel/graph.py`) -/

/-- One `if KEY not in self.graph: self.graph[KEY] = v` step of
`BELGraph.__init__`. -/
def initGraphKey (ga : List (String × Value)) (k : String) (v : Value) :
    List (String × Value) :=
  if dictHas ga k then ga else dictSet ga k v

/-- `BELGraph.__init__` with no initial data: empty node set, empty warning
log, `has_singleton_terms = False`, and the graph-metadata dict populated
by the source's sequence of conditional inserts (the version string and
the eight, initially empty, metadata registries). -/
def BELGraph.empty : BELGraph :=
  { nodes := []
    graphAttrs :=
      initGraphKey (initGraphKey (initGraphKey (initGraphKey (initGraphKey
        (initGraphKey (initGraphKey (initGraphKey (initGraphKey []
          GRAPH_METADATA (Value.vdict []))
          GRAPH_PYBEL_VERSION (Value.vstr get_version))
          GRAPH_NAMESPACE_URL (Value.vdict []))
          GRAPH_NAMESPACE_OWL (Value.vdict []))
          GRAPH_NAMESPACE_PATTERN (Value.vdict []))
          GRAPH_ANNOTATION_URL (Value.vdict []))
          GRAPH_ANNOTATION_OWL (Value.vdict []))
          GRAPH_ANNOTATION_PATTERN (Value.vdict []))
          GRAPH_ANNOTATION_LIST (Value.vdict [])
    warnings := []
    hasSingletonTerms := false }

/-- `BELGraph.add_warning(line_number, line, exception, context=None)`:
appends one 4-tuple to the warning log, storing `{}` when `context` is
`None`. -/
def BELGraph.add_warning (g : BELGraph) (lineNumber : Nat) (line : String)
    (exception : String) (context : Option Attrs := none) : BELGraph :=
  { g with warnings := g.warnings ++ [(lineNumber, line, exception, context.getD [])] }

/-- Modelled from the spec: `pybel.constants.unqualified_edge_code` (not
under `src/`), "a fixed lookup table from relation type to reserved
negative keys" — relation number `i` (1-based) maps to key `-i`; unlisted
relations raise `KeyError` (here: `none`). -/
def unqualified_edge_code (relation : String) : Option Int :=
  (["hasReactant", "hasProduct", "hasComponent", "hasVariant", "hasMember",
    "transcribedTo", "translatedTo"].indexOf? relation).map
    (fun i => -(1 + (i : Int)))

/-- `BELGraph.add_unqualified_edge(u, v, relation)`: looks up the reserved
key for `relation` (`none` models the `KeyError` for a relation without
one) and, unless an edge with that key already exists between `u` and `v`,
adds the edge with attributes `{relation: relation, annotations: {}}`. -/
def BELGraph.add_unqualified_edge (g : BELGraph) (u v : BELNode)
    (relation : String) : Option BELGraph :=
  match unqualified_edge_code relation with
  | none => none
  | some key =>
      some (if g.has_edge u v key then g
            else g.add_edge u v (some key)
              [(RELATION, Value.vstr relation), (ANNOTATIONS, Value.vdict [])])

/-- Modelled from the spec: `pybel.utils.subdict_matches` (not under
`src/`) — "a sub-dictionary match: every constraint key must be present
with an equal value; extra attributes on the entity are ignored". -/
def subdict_matches (target constraints : Attrs) : Bool :=
  constraints.all fun kv =>
    match dictGet target kv.1 with
    | some v => valueEq kv.2 v
    | none => false

/-- All edges of the graph as `(u, v, key, data)` tuples, in networkx
iteration order (`MultiDiGraph.edges_iter(keys=True, data=True)`). -/
def BELGraph.edgesList (g : BELGraph) : List (BELNode × BELNode × Int × Attrs) :=
  g.nodes.flatMap fun un =>
    un.2.succ.flatMap fun vn =>
      vn.2.map fun kd => (un.1, vn.1, kd.1, kd.2)

/-- `BELGraph.edges_iter(**kwargs)` (with `keys=True, data=True`): all edges
whose data dict sub-dictionary-matches the keyword constraints. -/
def BELGraph.edges_iter (g : BELGraph) (constraints : Attrs) :
    List (BELNode × BELNode × Int × Attrs) :=
  g.edgesList.filter fun e => subdict_matches e.2.2.2 constraints

/-- All nodes of the graph with their data dicts, in iteration order
(networkx `nodes_iter(data=True)`). -/
def BELGraph.nodesList (g : BELGraph) : List (BELNode × Attrs) :=
  g.nodes.map fun un => (un.1, un.2.attrs)

/-- `BELGraph.nodes_iter(**kwargs)` (with `data=True`): all nodes whose data
dict sub-dictionary-matches the keyword constraints. -/
def BELGraph.nodes_iter (g : BELGraph) (constraints : Attrs) :
    List (BELNode × Attrs) :=
  g.nodesList.filter fun nd => subdict_matches nd.2 constraints

/-- `BELGraph.add_simple_node(function, namespace, name)`: inserts the node
`(function, namespace, name)` with its three descriptive attributes unless
it is already present. -/
def BELGraph.add_simple_node (g : BELGraph) (function namespace_ name : String) :
    BELGraph :=
  let node : BELNode := (function, namespace_, name)
  if g.containsNode node then g
  else g.add_node node
    [(FUNCTION, Value.vstr function), (NAMESPACE, Value.vstr namespace_),
     (NAME, Value.vstr name)]

/-- `BELGraph.get_edge_citation(u, v, key)`: `self.edge[u][v][key][CITATION]`;
`none` models the `KeyError` raised when any link of the chain is absent. -/
def BELGraph.get_edge_citation (g : BELGraph) (u v : BELNode) (k : Int) : Option Value :=
  (g.edgeData u v k).bind fun d => dictGet d CITATION

/-- `BELGraph.get_edge_evidence(u, v, key)`. -/
def BELGraph.get_edge_evidence (g : BELGraph) (u v : BELNode) (k : Int) : Option Value :=
  (g.edgeData u v k).bind fun d => dictGet d EVIDENCE

/-- `BELGraph.get_edge_annotations(u, v, key)`. -/
def BELGraph.get_edge_annotations (g : BELGraph) (u v : BELNode) (k : Int) : Option Value :=
  (g.edgeData u v k).bind fun d => dictGet d ANNOTATIONS

/-- `BELGraph.set_node_label(node, label)`: `self.node[node][LABEL] = label`
(a no-op on untracked nodes, where Python would raise `KeyError`). -/
def BELGraph.set_node_label (g : BELGraph) (node : BELNode) (label : String) : BELGraph :=
  let newNodes := dictModify g.nodes node
    (fun nd => ⟨dictSet nd.attrs LABEL (Value.vstr label), nd.succ⟩)
  { g with nodes := newNodes }

/-- `BELGraph.set_node_description(node, description)`. -/
def BELGraph.set_node_description (g : BELGraph) (node : BELNode)
    (description : String) : BELGraph :=
  let newNodes := dictModify g.nodes node
    (fun nd => ⟨dictSet nd.attrs DESCRIPTION (Value.vstr description), nd.succ⟩)
  { g with nodes := newNodes }

/-! ## `left_full_merge` (`src/pybel/graph.py`, lines 244-264) -/

/-- The node loop of `left_full_merge`: nodes of `h` absent from `g` are
inserted with `h`'s attribute dict. -/
def mergeNodeStep (g : BELGraph) (nd : BELNode × Attrs) : BELGraph :=
  if g.containsNode nd.1 then g else g.add_node nd.1 nd.2

/-- The edge loop body of `left_full_merge`, for one donor edge
`(u, v, k, d)`:
negative (unqualified) keys are copied at the same key unless that key is
already present; qualified edges are copied at a fresh key unless some
existing edge between the pair with a non-negative key has `==`-equal
attributes. -/
def mergeEdgeStep (g : BELGraph) (e : BELNode × BELNode × Int × Attrs) : BELGraph :=
  let u := e.1
  let v := e.2.1
  let k := e.2.2.1
  let d := e.2.2.2
  let gu := g.succOf u
  if k < 0 then
    if (dictGet gu v).isNone || !(dictHas ((dictGet gu v).getD []) k) then
      g.add_edge u v (some k) d
    else g
  else
    match dictGet gu v with
    | none => g.add_edge u v none d
    | some kd =>
        if kd.any (fun gkd => decide (0 ≤ gkd.1) && attrsEq d gkd.2) then g
        else g.add_edge u v none d

/-- `left_full_merge(g, h)`: adds all nodes and edges of `h` to `g` (the
function is pure, so the donor `h` is untouched by construction, matching
the in-place Python code that never mutates `h`). -/
def left_full_merge (g h : BELGraph) : BELGraph :=
  let g1 := (h.nodes_iter []).foldl mergeNodeStep g
  (h.edges_iter []).foldl mergeEdgeStep g1

/-! ## Graph well-formedness

Every graph reachable through CPython satisfies `wfGraph`: all the
dictionaries making up the state have distinct keys and well-formed
attribute values. -/

def wfSucc (succ : List (BELNode × List (Int × Attrs))) : Bool :=
  dictNodup succ && succ.all fun vn =>
    dictNodup vn.2 && vn.2.all fun kd => attrsWf kd.2

def wfGraph (g : BELGraph) : Bool :=
  dictNodup g.nodes && g.nodes.all fun un => attrsWf un.2.attrs && wfSucc un.2.succ

/-! ## Citation date sanitizer

The implementation (`pybel/manager/citation_utils.py`) is not under `src/`;
only its tests are (`src/tests/test_manager/test_citation_utils.py`).  It is
modelled from the spec (section 4.3): a pure total function from a raw date
string to a normalized `YYYY-MM-DD` string, or `none` (the failure
sentinel) when no supported grammar matches.  Tokenisation works on
character lists to keep everything kernel-reducible. -/

/-- Splits a character list on a separator character, keeping empty pieces
(like Python `str.split(sep)`). -/
def splitChar (sep : Char) : List Char → List (List Char)
  | [] => [[]]
  | c :: t =>
      let r := splitChar sep t
      if c = sep then [] :: r
      else
        match r with
        | h :: t' => (c :: h) :: t'
        | [] => [[c]]

/-- Modelled from the spec: a year token is exactly four digits. -/
def year4 (y : List Char) : Option (List Char) :=
  if y.length = 4 && y.all Char.isDigit then some y else none

/-- Modelled from the spec: standard three-letter month abbreviations,
case-sensitive, mapped to their two-digit month numbers. -/
def month2 : List Char → Option (List Char)
  | ['J', 'a', 'n'] => some ['0', '1']
  | ['F', 'e', 'b'] => some ['0', '2']
  | ['M', 'a', 'r'] => some ['0', '3']
  | ['A', 'p', 'r'] => some ['0', '4']
  | ['M', 'a', 'y'] => some ['0', '5']
  | ['J', 'u', 'n'] => some ['0', '6']
  | ['J', 'u', 'l'] => some ['0', '7']
  | ['A', 'u', 'g'] => some ['0', '8']
  | ['S', 'e', 'p'] => some ['0', '9']
  | ['O', 'c', 't'] => some ['1', '0']
  | ['N', 'o', 'v'] => some ['1', '1']
  | ['D', 'e', 'c'] => some ['1', '2']
  | _ => none

/-- Modelled from the spec: seasons map to a fixed canonical month
(Spring to March, Summer to June, Fall/Autumn to September, Winter to
December). -/
def season2 : List Char → Option (List Char)
  | ['S', 'p', 'r', 'i', 'n', 'g'] => some ['0', '3']
  | ['S', 'u', 'm', 'm', 'e', 'r'] => some ['0', '6']
  | ['F', 'a', 'l', 'l'] => some ['0', '9']
  | ['A', 'u', 't', 'u', 'm', 'n'] => some ['0', '9']
  | ['W', 'i', 'n', 't', 'e', 'r'] => some ['1', '2']
  | _ => none

/-- Modelled from the spec: a day token is one or two digits, normalized to
two digits with a leading zero. -/
def day2 : List Char → Option (List Char)
  | [c] => if c.isDigit then some ['0', c] else none
  | [c1, c2] => if c1.isDigit && c2.isDigit then some [c1, c2] else none
  | _ => none

/-- Modelled from the spec: handles the second token of a two-token date:
`Mon` (day 1 of that month), `Mon-Mon` (day 1 of the first month), or a
season (day 1 of its canonical month). -/
def monthish (t : List Char) : Option (List Char) :=
  match month2 t with
  | some mm => some mm
  | none =>
      match splitChar '-' t with
      | [m1, m2] =>
          (month2 m1).bind fun mm1 => (month2 m2).map fun _ => mm1
      | _ => season2 t

/-- Modelled from the spec: handles the third token of a three-token date:
`DD` (exact day), or `DD-DD` (first day of a day range). -/
def dayish (t : List Char) : Option (List Char) :=
  match splitChar '-' t with
  | [d] => day2 d
  | [d1, d2] => (day2 d1).bind fun dd1 => (day2 d2).map fun _ => dd1
  | _ => none

/-- Modelled from the spec (section 4.3): the date grammar dispatch, on the
space-separated tokens of the input, returning validated year, month and
day pieces.  The four-token form is `YYYY Mon DD-Mon DD` (a range spanning
two months, normalized to its first day). -/
def sanitize_core (l : List Char) : Option (List Char × List Char × List Char) :=
  match splitChar ' ' l with
  | [y] => (year4 y).map fun yy => (yy, ['0', '1'], ['0', '1'])
  | [y, t] =>
      (year4 y).bind fun yy =>
        (monthish t).map fun mm => (yy, mm, ['0', '1'])
  | [y, m, t] =>
      (year4 y).bind fun yy =>
        (month2 m).bind fun mm =>
          (dayish t).map fun dd => (yy, mm, dd)
  | [y, m, t3, t4] =>
      (year4 y).bind fun yy =>
        (month2 m).bind fun mm =>
          match splitChar '-' t3 with
          | [d1, m2] =>
              (day2 d1).bind fun dd1 =>
                (month2 m2).bind fun _ =>
                  (day2 t4).map fun _ => (yy, mm, dd1)
          | _ => none
  | _ => none

/-- Modelled from the spec: `sanitize_date` — parse a free-text publication
date and renormalize it to `YYYY-MM-DD`, or return `none` (the failure
sentinel) when no supported grammar matches. -/
def sanitize_date (s : String) : Option String :=
  (sanitize_core s.data).map fun t =>
    String.mk (t.1 ++ '-' :: t.2.1 ++ '-' :: t.2.2)

/-- A string has the normalized date shape `YYYY-MM-DD`: ten characters,
digits everywhere except dashes at positions 5 and 8. -/
def isNormDate (s : String) : Bool :=
  match s.data with
  | [y1, y2, y3, y4, h1, m1, m2, h2, d1, d2] =>
      y1.isDigit && y2.isDigit && y3.isDigit && y4.isDigit &&
        h1 = '-' && m1.isDigit && m2.isDigit && h2 = '-' &&
        d1.isDigit && d2.isDigit
  | _ => false

/-- The key under which `add_edge g u v key? _` stores its new data dict
(networkx's key-selection logic). -/
def insKey (g : BELGraph) (u v : BELNode) (key? : Option Int) : Int :=
  match key? with
  | some k => k
  | none =>
      match dictGet (g.succOf u) v with
      | some kd => freshKey kd
      | none => 0

/-- After the merge has processed donor edge `e = (u, v, k, d)`:
for a negative (unqualified) key, an edge with key `k` is present between
`(u, v)` and its attributes are either `==`-equal to `d` or are the
receiver's own original attributes at that key (first-write-wins); for a
non-negative (qualified) key, some edge between `(u, v)` with non-negative
key has attributes `==`-equal to `d`. -/
def donorEdgeDone (gref gcur : BELGraph) (e : BELNode × BELNode × Int × Attrs) : Prop :=
  if e.2.2.1 < 0 then
    ∃ d', gcur.edgeData e.1 e.2.1 e.2.2.1 = some d' ∧
      (attrsEq e.2.2.2 d' = true ∨ gref.edgeData e.1 e.2.1 e.2.2.1 = some d')
  else
    ∃ p ∈ gcur.keydictOf e.1 e.2.1, 0 ≤ p.1 ∧ attrsEq e.2.2.2 p.2 = true

/-- The precondition a donor edge with a negative key needs before its own
merge step runs: its slot in the receiver is still empty, or its
postcondition already holds. -/
def donorEdgePre (gref gcur : BELGraph) (e : BELNode × BELNode × Int × Attrs) : Prop :=
  e.2.2.1 < 0 → gcur.edgeData e.1 e.2.1 e.2.2.1 = none ∨ donorEdgeDone gref gcur e

/-! ## Concrete graphs used by witnesses and counterexamples -/

def exNodeA : BELNode := ("Protein", "HGNC", "A")
def exNodeB : BELNode := ("Protein", "HGNC", "B")
def exAttrsA : Attrs := [(RELATION, Value.vstr "hasComponent"), (ANNOTATIONS, Value.vdict [])]
def exAttrsB : Attrs := [(RELATION, Value.vstr "hasMember"), (ANNOTATIONS, Value.vdict [])]

/-- A receiver graph owning an unqualified edge at key `-1` with attributes
`exAttrsA`. -/
def exReceiver : BELGraph := BELGraph.empty.add_edge exNodeA exNodeB (some (-1)) exAttrsA

/-- A donor graph owning an unqualified edge at the same key `-1` between the
same pair, but with different attributes `exAttrsB`. -/
def exDonor : BELGraph := BELGraph.empty.add_edge exNodeA exNodeB (some (-1)) exAttrsB

/-- A receiver whose node `exNodeA` carries attribute `name = a1`. -/
def exReceiverN : BELGraph := BELGraph.empty.add_node exNodeA [(NAME, Value.vstr "a1")]

/-- A donor whose node `exNodeA` carries the conflicting attribute
`name = a2`. -/
def exDonorN : BELGraph := BELGraph.empty.add_node exNodeA [(NAME, Value.vstr "a2")]

/-- A graph with one qualified edge carrying citation, evidence and
annotations (for the C6 witness). -/
def exCited : BELGraph :=
  BELGraph.empty.add_edge exNodeA exNodeB none
    [(CITATION, Value.vstr "12345"), (EVIDENCE, Value.vstr "ev"),
     (ANNOTATIONS, Value.vdict [])]

/-! ## Dictionary lemmas -/

theorem dictGet_dictSet_self {K V : Type} [DecidableEq K] (d : List (K × V)) (k : K) (v : V) :
    dictGet (dictSet d k v) k = some v := by
  induction d with
  | nil => simp [dictGet, dictSet]
  | cons kv t ih =>
      obtain ⟨k', v'⟩ := kv
      by_cases h : k = k'
      · subst h
        simp [dictGet, dictSet]
      · simp [dictGet, dictSet, h, ih]

theorem dictGet_dictSet_ne {K V : Type} [DecidableEq K] (d : List (K × V)) (k k' : K) (v : V)
    (h : k' ≠ k) : dictGet (dictSet d k v) k' = dictGet d k' := by
  induction d with
  | nil => simp [dictGet, dictSet, h]
  | cons kv t ih =>
      obtain ⟨k0, v0⟩ := kv
      by_cases h0 : k = k0
      · subst h0
        simp [dictGet, dictSet, h]
      · by_cases h1 : k' = k0
        · subst h1
          simp [dictGet, dictSet, h0]
        · simp [dictGet, dictSet, h0, h1, ih]

theorem dictHas_dictSet_self {K V : Type} [DecidableEq K] (d : List (K × V)) (k : K) (v : V) :
    dictHas (dictSet d k v) k = true := by
  simp [dictHas, dictGet_dictSet_self]

theorem dictHas_dictSet_of_has {K V : Type} [DecidableEq K] (d : List (K × V)) (k k' : K)
    (v : V) (h : dictHas d k' = true) : dictHas (dictSet d k v) k' = true := by
  by_cases hk : k' = k
  · subst hk
    exact dictHas_dictSet_self d k' v
  · simpa [dictHas, dictGet_dictSet_ne d k k' v hk] using h

theorem mem_of_dictGet {K V : Type} [DecidableEq K] {d : List (K × V)} {k : K} {v : V}
    (h : dictGet d k = some v) : (k, v) ∈ d := by
  induction d with
  | nil => simp [dictGet] at h
  | cons kv t ih =>
      obtain ⟨k0, v0⟩ := kv
      by_cases h0 : k = k0
      · subst h0
        simp [dictGet] at h
        simp [h]
      · simp [dictGet, h0] at h
        exact List.mem_cons_of_mem _ (ih h)

theorem dictHas_false_not_mem {K V : Type} [DecidableEq K] {d : List (K × V)} {k : K}
    (h : dictHas d k = false) : ∀ v, (k, v) ∉ d := by
  intro v hm
  induction d with
  | nil => simp at hm
  | cons kv t ih =>
      obtain ⟨k0, v0⟩ := kv
      by_cases h0 : k = k0
      · subst h0
        simp [dictHas, dictGet] at h
      · rcases List.mem_cons.mp hm with h1 | h1
        · exact h0 (congrArg Prod.fst h1)
        · exact ih (by simpa [dictHas, dictGet, h0] using h) h1

theorem dictGet_of_mem_nodup {K V : Type} [DecidableEq K] {d : List (K × V)} {k : K} {v : V}
    (hnd : dictNodup d = true) (hm : (k, v) ∈ d) : dictGet d k = some v := by
  induction d with
  | nil => simp at hm
  | cons kv t ih =>
      obtain ⟨k0, v0⟩ := kv
      simp only [dictNodup, Bool.and_eq_true, Bool.not_eq_true'] at hnd
      rcases List.mem_cons.mp hm with h1 | h1
      · obtain ⟨hk, hv⟩ := Prod.mk.injEq .. ▸ h1
        subst hk hv
        simp [dictGet]
      · by_cases h0 : k = k0
        · subst h0
          exact absurd h1 (dictHas_false_not_mem hnd.1 v)
        · simp [dictGet, h0]
          exact ih hnd.2 h1

theorem dictSet_absent {K V : Type} [DecidableEq K] (d : List (K × V)) (k : K) (v : V)
    (h : dictHas d k = false) : dictSet d k v = d ++ [(k, v)] := by
  induction d with
  | nil => simp [dictSet]
  | cons kv t ih =>
      obtain ⟨k0, v0⟩ := kv
      by_cases h0 : k = k0
      · subst h0
        simp [dictHas, dictGet] at h
      · simp [dictSet, h0]
        exact ih (by simpa [dictHas, dictGet, h0] using h)

theorem dictHas_append {K V : Type} [DecidableEq K] (d e : List (K × V)) (k : K) :
    dictHas (d ++ e) k = (dictHas d k || dictHas e k) := by
  induction d with
  | nil => simp [dictHas, dictGet]
  | cons kv t ih =>
      obtain ⟨k0, v0⟩ := kv
      by_cases h0 : k = k0
      · subst h0
        simp [dictHas, dictGet]
      · simpa [dictHas, dictGet, h0] using ih

theorem dictNodup_dictSet {K V : Type} [DecidableEq K] (d : List (K × V)) (k : K) (v : V)
    (hnd : dictNodup d = true) : dictNodup (dictSet d k v) = true := by
  induction d with
  | nil => simp [dictSet, dictNodup, dictHas, dictGet]
  | cons kv t ih =>
      obtain ⟨k0, v0⟩ := kv
      simp only [dictNodup, Bool.and_eq_true, Bool.not_eq_true'] at hnd
      by_cases h0 : k = k0
      · subst h0
        simp only [dictSet, if_pos rfl]
        simp [dictNodup, hnd.1, hnd.2]
      · simp only [dictSet, if_neg h0]
        simp only [dictNodup, Bool.and_eq_true, Bool.not_eq_true']
        refine ⟨?_, ih hnd.2⟩
        by_cases hk : k0 = k
        · exact absurd hk.symm h0
        · simpa [dictHas, dictGet_dictSet_ne t k k0 v hk] using hnd.1

theorem countKey_zero {K V : Type} [DecidableEq K] (d : List (K × V)) (k : K)
    (h : dictHas d k = false) : countKey d k = 0 := by
  induction d with
  | nil => simp [countKey]
  | cons kv t ih =>
      obtain ⟨k0, v0⟩ := kv
      by_cases h0 : k = k0
      · subst h0
        simp [dictHas, dictGet] at h
      · have : dictHas t k = false := by simpa [dictHas, dictGet, h0] using h
        simpa [countKey, Ne.symm h0] using ih this

theorem countKey_one {K V : Type} [DecidableEq K] (d : List (K × V)) (k : K)
    (hnd : dictNodup d = true) (hh : dictHas d k = true) : countKey d k = 1 := by
  induction d with
  | nil => simp [dictHas, dictGet] at hh
  | cons kv t ih =>
      obtain ⟨k0, v0⟩ := kv
      simp only [dictNodup, Bool.and_eq_true, Bool.not_eq_true'] at hnd
      by_cases h0 : k = k0
      · subst h0
        have := countKey_zero t k hnd.1
        simpa [countKey] using this
      · have : dictHas t k = true := by simpa [dictHas, dictGet, h0] using hh
        simpa [countKey, Ne.symm h0] using ih hnd.2 this

theorem dictModify_cons {K V : Type} [DecidableEq K] (k0 : K) (v0 : V) (t : List (K × V))
    (k : K) (f : V → V) :
    dictModify ((k0, v0) :: t) k f =
      (if k0 = k then (k0, f v0) else (k0, v0)) :: dictModify t k f := rfl

theorem dictGet_dictModify_self {K V : Type} [DecidableEq K] (d : List (K × V)) (k : K)
    (f : V → V) : dictGet (dictModify d k f) k = (dictGet d k).map f := by
  induction d with
  | nil => simp [dictGet, dictModify]
  | cons kv t ih =>
      obtain ⟨k0, v0⟩ := kv
      rw [dictModify_cons]
      by_cases h0 : k0 = k
      · subst h0
        rw [if_pos rfl]
        simp [dictGet]
      · rw [if_neg h0]
        have hne : k ≠ k0 := fun h => h0 h.symm
        simp [dictGet, hne, ih]

theorem dictGet_dictModify_ne {K V : Type} [DecidableEq K] (d : List (K × V)) (k k' : K)
    (f : V → V) (h : k' ≠ k) : dictGet (dictModify d k f) k' = dictGet d k' := by
  induction d with
  | nil => simp [dictGet, dictModify]
  | cons kv t ih =>
      obtain ⟨k0, v0⟩ := kv
      rw [dictModify_cons]
      by_cases h0 : k0 = k
      · subst h0
        rw [if_pos rfl]
        simp [dictGet, h, ih]
      · rw [if_neg h0]
        by_cases h1 : k' = k0
        · subst h1
          simp [dictGet]
        · simp [dictGet, h1, ih]

theorem dictUpd_disjoint {K V : Type} [DecidableEq K] (e : List (K × V)) :
    ∀ d : List (K × V), dictNodup e = true →
      (∀ kv ∈ e, dictHas d kv.1 = false) → dictUpd d e = d ++ e := by
  induction e with
  | nil => intro d _ _; simp [dictUpd]
  | cons kv t ih =>
      intro d hnd hdisj
      obtain ⟨k, v⟩ := kv
      simp only [dictNodup, Bool.and_eq_true, Bool.not_eq_true'] at hnd
      have hstep : dictUpd d ((k, v) :: t) = dictUpd (dictSet d k v) t := by
        simp [dictUpd]
      have habs : dictHas d k = false := hdisj (k, v) (List.mem_cons_self _ _)
      rw [hstep, dictSet_absent d k v habs, ih (d ++ [(k, v)]) hnd.2 ?_, List.append_assoc]
      · rfl
      · intro kv' hm
        have h1 : dictHas d kv'.1 = false := hdisj kv' (List.mem_cons_of_mem _ hm)
        have h2 : kv'.1 ≠ k := by
          intro hk
          have hmem : (kv'.1, kv'.2) ∈ t := by simpa using hm
          rw [hk] at hmem
          exact dictHas_false_not_mem hnd.1 kv'.2 hmem
        rw [dictHas_append, h1]
        simp [dictHas, dictGet, h2]

theorem dictUpd_nil {K V : Type} [DecidableEq K] (e : List (K × V))
    (hnd : dictNodup e = true) : dictUpd [] e = e := by
  simpa using dictUpd_disjoint e [] hnd (by intro kv _; simp [dictHas, dictGet])

/-! ## Reflexivity of the Python equality tests (on well-formed data) -/

theorem flatDictEq_refl (d : List (String × String)) (hnd : dictNodup d = true) :
    flatDictEq d d = true := by
  simp only [flatDictEq, Bool.and_eq_true, List.all_eq_true]
  have h : ∀ kv ∈ d, dictGet d kv.1 = some kv.2 := by
    intro kv hm
    exact dictGet_of_mem_nodup hnd (by simpa using hm)
  exact ⟨fun kv hm => by simp [h kv hm], fun kv hm => by simp [h kv hm]⟩

theorem valueEq_refl (v : Value) (hwf : valueWf v = true) : valueEq v v = true := by
  cases v with
  | vstr s => simp [valueEq]
  | vint i => simp [valueEq]
  | vdict d => exact flatDictEq_refl d (by simpa [valueWf] using hwf)

theorem attrsEq_refl (d : Attrs) (hwf : attrsWf d = true) : attrsEq d d = true := by
  simp only [attrsWf, Bool.and_eq_true, List.all_eq_true] at hwf
  obtain ⟨hnd, hvals⟩ := hwf
  simp only [attrsEq, Bool.and_eq_true, List.all_eq_true]
  have h : ∀ kv ∈ d, dictGet d kv.1 = some kv.2 := by
    intro kv hm
    exact dictGet_of_mem_nodup hnd (by simpa using hm)
  constructor
  · intro kv hm
    rw [h kv hm]
    exact valueEq_refl kv.2 (hvals kv hm)
  · intro kv hm
    rw [h kv hm]
    exact valueEq_refl kv.2 (hvals kv hm)

/-! ## Fresh-key lemmas (networkx's `while key in keydict: key += 1`) -/

theorem dictHas_iff_mem_keys {K V : Type} [DecidableEq K] (d : List (K × V)) (k : K) :
    dictHas d k = true ↔ k ∈ dictKeys d := by
  induction d with
  | nil => simp [dictHas, dictGet, dictKeys]
  | cons kv t ih =>
      obtain ⟨k0, v0⟩ := kv
      by_cases h0 : k = k0
      · subst h0
        simp [dictHas, dictGet, dictKeys]
      · simpa [dictHas, dictGet, dictKeys, h0] using ih

theorem freshKeyAux_ge (kd : List (Int × Attrs)) :
    ∀ (fuel : Nat) (k : Int), k ≤ freshKeyAux kd fuel k := by
  intro fuel
  induction fuel with
  | zero => intro k; simp [freshKeyAux]
  | succ n ih =>
      intro k
      simp only [freshKeyAux]
      by_cases h : dictHas kd k = true
      · rw [if_pos h]
        exact le_trans (by omega) (ih (k + 1))
      · rw [if_neg h]

theorem freshKeyAux_free (kd : List (Int × Attrs)) :
    ∀ (fuel : Nat) (k : Int),
      (∃ i : Nat, i < fuel ∧ dictHas kd (k + i) = false) →
      dictHas kd (freshKeyAux kd fuel k) = false := by
  intro fuel
  induction fuel with
  | zero =>
      rintro k ⟨i, hi, _⟩
      omega
  | succ n ih =>
      rintro k ⟨i, hi, hfree⟩
      simp only [freshKeyAux]
      by_cases h : dictHas kd k = true
      · rw [if_pos h]
        apply ih
        have hi0 : i ≠ 0 := by
          rintro rfl
          rw [show k + ((0 : Nat) : Int) = k by simp] at hfree
          rw [h] at hfree
          exact Bool.true_eq_false.mp hfree
        refine ⟨i - 1, by omega, ?_⟩
        have harg : k + 1 + ((i - 1 : Nat) : Int) = k + i := by
          push_cast [Nat.cast_sub (by omega : 1 ≤ i)]
          ring
        rw [harg]
        exact hfree
      · rw [if_neg h]
        exact Bool.not_eq_true _ ▸ (by simpa using h)

theorem freshKey_not_has (kd : List (Int × Attrs)) : dictHas kd (freshKey kd) = false := by
  apply freshKeyAux_free
  by_contra hall
  push_neg at hall
  have hall' : ∀ i : Nat, i < kd.length + 1 → dictHas kd ((kd.length : Int) + i) = true := by
    intro i hi
    have := hall i hi
    simpa [Int.ofNat_eq_natCast] using Bool.not_eq_false _ ▸ (by simpa using this)
  set l := (List.range (kd.length + 1)).map (fun i : Nat => (kd.length : Int) + i) with hl
  have hnd : l.Nodup := by
    refine List.Nodup.map ?_ (List.nodup_range _)
    intro a b hab
    have hab' : (kd.length : Int) + a = (kd.length : Int) + b := hab
    omega
  have hsub : l.toFinset ⊆ (dictKeys kd).toFinset := by
    intro x hx
    rw [List.mem_toFinset] at hx ⊢
    rw [hl] at hx
    simp only [List.mem_map, List.mem_range] at hx
    obtain ⟨i, hi, rfl⟩ := hx
    rw [← dictHas_iff_mem_keys]
    exact hall' i hi
  have h1 : l.toFinset.card = kd.length + 1 := by
    rw [List.toFinset_card_of_nodup hnd, hl, List.length_map, List.length_range]
  have h2 : (dictKeys kd).toFinset.card ≤ kd.length := by
    calc (dictKeys kd).toFinset.card ≤ (dictKeys kd).length := List.toFinset_card_le _
    _ = kd.length := by simp [dictKeys]
  have h3 := Finset.card_le_card hsub
  omega

theorem freshKey_nonneg (kd : List (Int × Attrs)) : 0 ≤ freshKey kd := by
  have h := freshKeyAux_ge kd (kd.length + 1) (Int.ofNat kd.length)
  have h0 : (0 : Int) ≤ Int.ofNat kd.length := by
    simp [Int.ofNat_eq_natCast]
  exact le_trans h0 h

/-! ## Characterization of `add_edge` -/

theorem dictGet_none_of_not_has {K V : Type} [DecidableEq K] {d : List (K × V)} {k : K}
    (h : dictHas d k = false) : dictGet d k = none := by
  unfold dictHas at h
  cases hg : dictGet d k with
  | none => rfl
  | some v => rw [hg] at h; simp at h

theorem ensureNode_fields (g : BELGraph) (n : BELNode) :
    (ensureNode g n).warnings = g.warnings ∧
      (ensureNode g n).graphAttrs = g.graphAttrs ∧
      (ensureNode g n).hasSingletonTerms = g.hasSingletonTerms := by
  unfold ensureNode
  by_cases h : g.containsNode n = true
  · rw [if_pos h]
    exact ⟨rfl, rfl, rfl⟩
  · rw [if_neg h]
    exact ⟨rfl, rfl, rfl⟩

theorem ensureNode_succOf (g : BELGraph) (n x : BELNode) :
    (ensureNode g n).succOf x = g.succOf x := by
  unfold ensureNode
  by_cases h : g.containsNode n = true
  · rw [if_pos h]
  · rw [if_neg h]
    unfold BELGraph.succOf
    simp only
    by_cases hx : x = n
    · subst hx
      have hnone : dictGet g.nodes x = none :=
        dictGet_none_of_not_has (Bool.not_eq_true _ ▸ (by simpa [BELGraph.containsNode] using h))
      rw [hnone, dictGet_dictSet_self]
      simp
    · rw [dictGet_dictSet_ne _ _ _ _ hx]

theorem ensureNode_nodeAttrs_of_contains (g : BELGraph) (n m : BELNode)
    (h : g.containsNode m = true) : (ensureNode g n).nodeAttrs m = g.nodeAttrs m := by
  unfold ensureNode
  by_cases hc : g.containsNode n = true
  · rw [if_pos hc]
  · rw [if_neg hc]
    unfold BELGraph.nodeAttrs
    simp only
    have hmn : m ≠ n := by
      intro he
      rw [he] at h
      rw [h] at hc
      exact hc rfl
    rw [dictGet_dictSet_ne _ _ _ _ hmn]

theorem ensureNode_contains_mono (g : BELGraph) (n m : BELNode)
    (h : g.containsNode m = true) : (ensureNode g n).containsNode m = true := by
  unfold ensureNode
  by_cases hc : g.containsNode n = true
  · rw [if_pos hc]
    exact h
  · rw [if_neg hc]
    exact dictHas_dictSet_of_has _ _ _ _ h

theorem ensureNode_contains_self (g : BELGraph) (n : BELNode) :
    (ensureNode g n).containsNode n = true := by
  unfold ensureNode
  by_cases hc : g.containsNode n = true
  · rw [if_pos hc]
    exact hc
  · rw [if_neg hc]
    exact dictHas_dictSet_self _ _ _

theorem ensureNode_nodes_get_isSome (g : BELGraph) (n : BELNode) :
    (dictGet (ensureNode g n).nodes n).isSome = true :=
  ensureNode_contains_self g n

theorem dictHas_dictModify {K V : Type} [DecidableEq K] (d : List (K × V)) (k k' : K)
    (f : V → V) : dictHas (dictModify d k f) k' = dictHas d k' := by
  by_cases h : k' = k
  · subst h
    simp [dictHas, dictGet_dictModify_self]
  · simp [dictHas, dictGet_dictModify_ne d k k' f h]

theorem add_edge_eq (g : BELGraph) (u v : BELNode) (key? : Option Int) (a : Attrs) :
    g.add_edge u v key? a =
      addEdgeCore (ensureNode (ensureNode g u) v) u v (dictGet (g.succOf u) v) key? a := by
  show addEdgeCore (ensureNode (ensureNode g u) v) u v
      (dictGet ((ensureNode (ensureNode g u) v).succOf u) v) key? a = _
  rw [ensureNode_succOf, ensureNode_succOf]

theorem add_edge_fields (g : BELGraph) (u v : BELNode) (key? : Option Int) (a : Attrs) :
    (g.add_edge u v key? a).warnings = g.warnings ∧
      (g.add_edge u v key? a).graphAttrs = g.graphAttrs ∧
      (g.add_edge u v key? a).hasSingletonTerms = g.hasSingletonTerms := by
  rw [add_edge_eq]
  have h1 := ensureNode_fields g u
  have h2 := ensureNode_fields (ensureNode g u) v
  cases hkd : dictGet (g.succOf u) v with
  | some kd =>
      simp only [addEdgeCore]
      exact ⟨h2.1.trans h1.1, h2.2.1.trans h1.2.1, h2.2.2.trans h1.2.2⟩
  | none =>
      simp only [addEdgeCore]
      exact ⟨h2.1.trans h1.1, h2.2.1.trans h1.2.1, h2.2.2.trans h1.2.2⟩

theorem insKey_of_none_absent (g : BELGraph) (u v : BELNode)
    (hkd : dictGet (g.succOf u) v = none) (key? : Option Int) :
    insKey g u v key? = key?.getD 0 := by
  cases key? with
  | some k => rfl
  | none => simp [insKey, hkd]

theorem insKey_of_some (g : BELGraph) (u v : BELNode) (kd : List (Int × Attrs))
    (hkd : dictGet (g.succOf u) v = some kd) (key? : Option Int) :
    insKey g u v key? = key?.getD (freshKey kd) := by
  cases key? with
  | some k => rfl
  | none => simp [insKey, hkd]

theorem add_edge_succOf (g : BELGraph) (u v : BELNode) (key? : Option Int) (a : Attrs)
    (hfree : dictHas (g.keydictOf u v) (insKey g u v key?) = false) (x : BELNode) :
    (g.add_edge u v key? a).succOf x =
      if x = u then
        dictSet (g.succOf u) v
          (dictSet (g.keydictOf u v) (insKey g u v key?) (dictUpd [] a))
      else g.succOf x := by
  have hu : (dictGet (ensureNode (ensureNode g u) v).nodes u).isSome = true :=
    ensureNode_contains_mono (ensureNode g u) v u (ensureNode_contains_self g u)
  obtain ⟨nd0, hnd0⟩ := Option.isSome_iff_exists.mp hu
  have hnd0succ : nd0.succ = g.succOf u := by
    have h1 : (ensureNode (ensureNode g u) v).succOf u = g.succOf u := by
      rw [ensureNode_succOf, ensureNode_succOf]
    have h2 : (ensureNode (ensureNode g u) v).succOf u = nd0.succ := by
      unfold BELGraph.succOf
      rw [hnd0]
      rfl
    rw [← h1, h2]
  have hsuccx : ∀ y, (ensureNode (ensureNode g u) v).succOf y = g.succOf y := by
    intro y
    rw [ensureNode_succOf, ensureNode_succOf]
  rw [add_edge_eq]
  cases hkd : dictGet (g.succOf u) v with
  | some kd =>
      have hkey : insKey g u v key? = key?.getD (freshKey kd) := insKey_of_some g u v kd hkd key?
      have hkdof : g.keydictOf u v = kd := by
        unfold BELGraph.keydictOf
        rw [hkd]
        rfl
      have hfree' : dictHas kd (key?.getD (freshKey kd)) = false := by
        rw [hkdof, hkey] at hfree
        exact hfree
      have hdd : (dictGet kd (key?.getD (freshKey kd))).getD [] = [] := by
        rw [dictGet_none_of_not_has hfree']
        rfl
      simp only [addEdgeCore]
      unfold BELGraph.succOf
      by_cases hx : x = u
      · subst hx
        rw [if_pos rfl]
        dsimp only
        rw [dictGet_dictModify_self, hnd0]
        simp only [Option.map_some', Option.getD_some]
        rw [hnd0succ, hkdof, hkey, hdd]
        rfl
      · rw [if_neg hx]
        dsimp only
        rw [dictGet_dictModify_ne _ _ _ _ hx]
        exact hsuccx x
  | none =>
      have hkey : insKey g u v key? = key?.getD 0 := insKey_of_none_absent g u v hkd key?
      have hkdof : g.keydictOf u v = [] := by
        unfold BELGraph.keydictOf
        rw [hkd]
        rfl
      simp only [addEdgeCore]
      unfold BELGraph.succOf
      by_cases hx : x = u
      · subst hx
        rw [if_pos rfl]
        dsimp only
        rw [dictGet_dictModify_self, hnd0]
        simp only [Option.map_some', Option.getD_some]
        rw [hnd0succ, hkdof, hkey]
        rfl
      · rw [if_neg hx]
        dsimp only
        rw [dictGet_dictModify_ne _ _ _ _ hx]
        exact hsuccx x

theorem add_edge_keydictOf_self (g : BELGraph) (u v : BELNode) (key? : Option Int)
    (a : Attrs) (hfree : dictHas (g.keydictOf u v) (insKey g u v key?) = false) :
    (g.add_edge u v key? a).keydictOf u v =
      dictSet (g.keydictOf u v) (insKey g u v key?) (dictUpd [] a) := by
  unfold BELGraph.keydictOf
  rw [show (g.add_edge u v key? a).succOf u =
      dictSet (g.succOf u) v (dictSet (g.keydictOf u v) (insKey g u v key?) (dictUpd [] a))
    from by rw [add_edge_succOf g u v key? a hfree u, if_pos rfl]]
  rw [dictGet_dictSet_self]
  rfl

theorem add_edge_keydictOf_ne (g : BELGraph) (u v : BELNode) (key? : Option Int)
    (a : Attrs) (hfree : dictHas (g.keydictOf u v) (insKey g u v key?) = false)
    (x y : BELNode) (hne : ¬(x = u ∧ y = v)) :
    (g.add_edge u v key? a).keydictOf x y = g.keydictOf x y := by
  unfold BELGraph.keydictOf
  rw [add_edge_succOf g u v key? a hfree x]
  by_cases hx : x = u
  · subst hx
    rw [if_pos rfl]
    have hy : y ≠ v := fun h => hne ⟨rfl, h⟩
    rw [dictGet_dictSet_ne _ _ _ _ hy]
  · rw [if_neg hx]

theorem add_edge_edgeData (g : BELGraph) (u v : BELNode) (key? : Option Int) (a : Attrs)
    (hfree : dictHas (g.keydictOf u v) (insKey g u v key?) = false) (x y : BELNode)
    (j : Int) :
    (g.add_edge u v key? a).edgeData x y j =
      if x = u ∧ y = v ∧ j = insKey g u v key? then some (dictUpd [] a)
      else g.edgeData x y j := by
  unfold BELGraph.edgeData
  by_cases hx : x = u
  · subst hx
    by_cases hy : y = v
    · subst hy
      rw [add_edge_keydictOf_self g x y key? a hfree]
      by_cases hj : j = insKey g x y key?
      · subst hj
        rw [dictGet_dictSet_self, if_pos ⟨rfl, rfl, rfl⟩]
      · rw [dictGet_dictSet_ne _ _ _ _ hj, if_neg (by simp [hj])]
    · rw [add_edge_keydictOf_ne g x v key? a hfree x y (by simp [hy]),
        if_neg (by simp [hy])]
  · rw [add_edge_keydictOf_ne g u v key? a hfree x y (by simp [hx]),
      if_neg (by simp [hx])]

theorem add_edge_edgeData_some (g : BELGraph) (u v : BELNode) (key? : Option Int)
    (a : Attrs) (hfree : dictHas (g.keydictOf u v) (insKey g u v key?) = false)
    (x y : BELNode) (j : Int) (d : Attrs) (h : g.edgeData x y j = some d) :
    (g.add_edge u v key? a).edgeData x y j = some d := by
  rw [add_edge_edgeData g u v key? a hfree]
  split
  · rename_i hc
    obtain ⟨rfl, rfl, rfl⟩ := hc
    exfalso
    unfold BELGraph.edgeData at h
    have : dictHas (g.keydictOf x y) (insKey g x y key?) = true := by
      unfold dictHas
      rw [h]
      rfl
    rw [this] at hfree
    exact Bool.true_eq_false.mp hfree
  · exact h

theorem add_edge_keydict_mem (g : BELGraph) (u v : BELNode) (key? : Option Int)
    (a : Attrs) (hfree : dictHas (g.keydictOf u v) (insKey g u v key?) = false)
    (x y : BELNode) (p : Int × Attrs) (hp : p ∈ g.keydictOf x y) :
    p ∈ (g.add_edge u v key? a).keydictOf x y := by
  by_cases hxy : x = u ∧ y = v
  · obtain ⟨rfl, rfl⟩ := hxy
    rw [add_edge_keydictOf_self g x y key? a hfree,
      dictSet_absent _ _ _ hfree]
    exact List.mem_append_left _ hp
  · rw [add_edge_keydictOf_ne g u v key? a hfree x y hxy]
    exact hp

theorem nodeAttrs_modify_succ (nodes : List (BELNode × NodeData)) (u : BELNode)
    (f : NodeData → NodeData) (hf : ∀ nd, (f nd).attrs = nd.attrs) (n : BELNode) :
    (dictGet (dictModify nodes u f) n).map NodeData.attrs =
      (dictGet nodes n).map NodeData.attrs := by
  by_cases hn : n = u
  · subst hn
    rw [dictGet_dictModify_self, Option.map_map]
    cases dictGet nodes n with
    | none => rfl
    | some nd => simp [Function.comp, hf nd]
  · rw [dictGet_dictModify_ne _ _ _ _ hn]

theorem add_edge_nodeAttrs_of_contains (g : BELGraph) (u v : BELNode) (key? : Option Int)
    (a : Attrs) (n : BELNode) (h : g.containsNode n = true) :
    (g.add_edge u v key? a).nodeAttrs n = g.nodeAttrs n := by
  have hG2 : (ensureNode (ensureNode g u) v).nodeAttrs n = g.nodeAttrs n := by
    rw [ensureNode_nodeAttrs_of_contains (ensureNode g u) v n
        (ensureNode_contains_mono g u n h),
      ensureNode_nodeAttrs_of_contains g u n h]
  rw [add_edge_eq]
  cases hkd : dictGet (g.succOf u) v with
  | some kd =>
      simp only [addEdgeCore]
      unfold BELGraph.nodeAttrs
      dsimp only
      rw [nodeAttrs_modify_succ (ensureNode (ensureNode g u) v).nodes u
        (fun nd => ⟨nd.attrs, dictSet nd.succ v
          (dictSet kd (key?.getD (freshKey kd))
            (dictUpd ((dictGet kd (key?.getD (freshKey kd))).getD []) a))⟩)
        (fun nd => rfl) n]
      exact hG2
  | none =>
      simp only [addEdgeCore]
      unfold BELGraph.nodeAttrs
      dsimp only
      rw [nodeAttrs_modify_succ (ensureNode (ensureNode g u) v).nodes u
        (fun nd => ⟨nd.attrs, dictSet nd.succ v
          [(key?.getD 0, dictUpd [] a)]⟩)
        (fun nd => rfl) n]
      exact hG2

theorem add_edge_contains_mono (g : BELGraph) (u v : BELNode) (key? : Option Int)
    (a : Attrs) (n : BELNode) (h : g.containsNode n = true) :
    (g.add_edge u v key? a).containsNode n = true := by
  have hG2 : (ensureNode (ensureNode g u) v).containsNode n = true :=
    ensureNode_contains_mono (ensureNode g u) v n (ensureNode_contains_mono g u n h)
  rw [add_edge_eq]
  cases hkd : dictGet (g.succOf u) v with
  | some kd =>
      simp only [addEdgeCore]
      unfold BELGraph.containsNode
      rw [dictHas_dictModify]
      exact hG2
  | none =>
      simp only [addEdgeCore]
      unfold BELGraph.containsNode
      rw [dictHas_dictModify]
      exact hG2

/-! ## Characterization of the merge steps -/

theorem mergeEdgeStep_spec (g : BELGraph) (e : BELNode × BELNode × Int × Attrs) :
    mergeEdgeStep g e = g ∨
    ∃ key? : Option Int,
      mergeEdgeStep g e = g.add_edge e.1 e.2.1 key? e.2.2.2 ∧
      dictHas (g.keydictOf e.1 e.2.1) (insKey g e.1 e.2.1 key?) = false ∧
      (insKey g e.1 e.2.1 key? = e.2.2.1 ∨ 0 ≤ insKey g e.1 e.2.1 key?) := by
  obtain ⟨u, v, k, d⟩ := e
  simp only [mergeEdgeStep]
  by_cases hk : k < 0
  · rw [if_pos hk]
    by_cases hc : ((dictGet (g.succOf u) v).isNone
        || !(dictHas ((dictGet (g.succOf u) v).getD []) k)) = true
    · rw [if_pos hc]
      right
      refine ⟨some k, rfl, ?_, Or.inl rfl⟩
      have hkdof : g.keydictOf u v = (dictGet (g.succOf u) v).getD [] := rfl
      rw [Bool.or_eq_true] at hc
      rcases hc with hc | hc
      · rw [hkdof, Option.isNone_iff_eq_none.mp hc]
        rfl
      · rw [hkdof]
        simpa using hc
    · rw [if_neg hc]
      left
      rfl
  · rw [if_neg hk]
    cases hkd : dictGet (g.succOf u) v with
    | none =>
        right
        refine ⟨none, rfl, ?_, Or.inr ?_⟩
        · have hkdof : g.keydictOf u v = [] := by
            unfold BELGraph.keydictOf
            rw [hkd]
            rfl
          rw [hkdof]
          rfl
        · rw [insKey_of_none_absent g u v hkd none]
          simp
    | some kd =>
        dsimp only
        by_cases ha : (kd.any fun gkd => decide (0 ≤ gkd.1) && attrsEq d gkd.2) = true
        · rw [if_pos ha]
          left
          rfl
        · rw [if_neg ha]
          right
          refine ⟨none, rfl, ?_, Or.inr ?_⟩
          · have hkdof : g.keydictOf u v = kd := by
              unfold BELGraph.keydictOf
              rw [hkd]
              rfl
            rw [hkdof, insKey_of_some g u v kd hkd none]
            exact freshKey_not_has kd
          · rw [insKey_of_some g u v kd hkd none]
            exact freshKey_nonneg kd

theorem mergeEdgeStep_fields (g : BELGraph) (e : BELNode × BELNode × Int × Attrs) :
    (mergeEdgeStep g e).warnings = g.warnings ∧
      (mergeEdgeStep g e).graphAttrs = g.graphAttrs ∧
      (mergeEdgeStep g e).hasSingletonTerms = g.hasSingletonTerms := by
  rcases mergeEdgeStep_spec g e with h | ⟨key?, heq, _, _⟩
  · rw [h]
    exact ⟨rfl, rfl, rfl⟩
  · rw [heq]
    exact add_edge_fields g e.1 e.2.1 key? e.2.2.2

theorem mergeEdgeStep_edgeData_some (g : BELGraph) (e : BELNode × BELNode × Int × Attrs)
    (x y : BELNode) (j : Int) (d : Attrs) (h : g.edgeData x y j = some d) :
    (mergeEdgeStep g e).edgeData x y j = some d := by
  rcases mergeEdgeStep_spec g e with heq | ⟨key?, heq, hfree, _⟩
  · rw [heq]
    exact h
  · rw [heq]
    exact add_edge_edgeData_some g e.1 e.2.1 key? e.2.2.2 hfree x y j d h

theorem mergeEdgeStep_keydict_mem (g : BELGraph) (e : BELNode × BELNode × Int × Attrs)
    (x y : BELNode) (p : Int × Attrs) (hp : p ∈ g.keydictOf x y) :
    p ∈ (mergeEdgeStep g e).keydictOf x y := by
  rcases mergeEdgeStep_spec g e with heq | ⟨key?, heq, hfree, _⟩
  · rw [heq]
    exact hp
  · rw [heq]
    exact add_edge_keydict_mem g e.1 e.2.1 key? e.2.2.2 hfree x y p hp

theorem mergeEdgeStep_nodeAttrs_of_contains (g : BELGraph)
    (e : BELNode × BELNode × Int × Attrs) (n : BELNode) (h : g.containsNode n = true) :
    (mergeEdgeStep g e).nodeAttrs n = g.nodeAttrs n := by
  rcases mergeEdgeStep_spec g e with heq | ⟨key?, heq, _, _⟩
  · rw [heq]
  · rw [heq]
    exact add_edge_nodeAttrs_of_contains g e.1 e.2.1 key? e.2.2.2 n h

theorem mergeEdgeStep_contains_mono (g : BELGraph) (e : BELNode × BELNode × Int × Attrs)
    (n : BELNode) (h : g.containsNode n = true) :
    (mergeEdgeStep g e).containsNode n = true := by
  rcases mergeEdgeStep_spec g e with heq | ⟨key?, heq, _, _⟩
  · rw [heq]
    exact h
  · rw [heq]
    exact add_edge_contains_mono g e.1 e.2.1 key? e.2.2.2 n h

theorem mergeEdgeStep_edgeData_neg_ne (g : BELGraph) (e : BELNode × BELNode × Int × Attrs)
    (x y : BELNode) (j : Int) (hj : j < 0)
    (hne : ¬(x = e.1 ∧ y = e.2.1 ∧ j = e.2.2.1)) :
    (mergeEdgeStep g e).edgeData x y j = g.edgeData x y j := by
  rcases mergeEdgeStep_spec g e with heq | ⟨key?, heq, hfree, hkey⟩
  · rw [heq]
  · rw [heq, add_edge_edgeData g e.1 e.2.1 key? e.2.2.2 hfree]
    rcases hkey with hkey | hkey
    · rw [if_neg]
      intro ⟨h1, h2, h3⟩
      exact hne ⟨h1, h2, h3.trans hkey⟩
    · rw [if_neg]
      intro ⟨h1, h2, h3⟩
      rw [h3] at hj
      omega

theorem mergeNodeStep_spec (g : BELGraph) (nd : BELNode × Attrs) :
    (g.containsNode nd.1 = true ∧ mergeNodeStep g nd = g) ∨
      (g.containsNode nd.1 = false ∧
        mergeNodeStep g nd = { g with nodes := dictSet g.nodes nd.1 ⟨nd.2, []⟩ }) := by
  unfold mergeNodeStep
  by_cases h : g.containsNode nd.1 = true
  · rw [if_pos h]
    exact Or.inl ⟨h, rfl⟩
  · rw [if_neg h]
    have h' : g.containsNode nd.1 = false := by simpa using h
    refine Or.inr ⟨h', ?_⟩
    unfold BELGraph.add_node
    rw [if_neg h]

theorem mergeNodeStep_fields (g : BELGraph) (nd : BELNode × Attrs) :
    (mergeNodeStep g nd).warnings = g.warnings ∧
      (mergeNodeStep g nd).graphAttrs = g.graphAttrs ∧
      (mergeNodeStep g nd).hasSingletonTerms = g.hasSingletonTerms := by
  rcases mergeNodeStep_spec g nd with ⟨_, heq⟩ | ⟨_, heq⟩ <;> rw [heq] <;>
    exact ⟨rfl, rfl, rfl⟩

theorem mergeNodeStep_succOf (g : BELGraph) (nd : BELNode × Attrs) (x : BELNode) :
    (mergeNodeStep g nd).succOf x = g.succOf x := by
  rcases mergeNodeStep_spec g nd with ⟨_, heq⟩ | ⟨habs, heq⟩
  · rw [heq]
  · rw [heq]
    unfold BELGraph.succOf
    dsimp only
    by_cases hx : x = nd.1
    · subst hx
      rw [dictGet_dictSet_self, dictGet_none_of_not_has habs]
      rfl
    · rw [dictGet_dictSet_ne _ _ _ _ hx]

theorem mergeNodeStep_keydictOf (g : BELGraph) (nd : BELNode × Attrs) (x y : BELNode) :
    (mergeNodeStep g nd).keydictOf x y = g.keydictOf x y := by
  unfold BELGraph.keydictOf
  rw [mergeNodeStep_succOf]

theorem mergeNodeStep_edgeData (g : BELGraph) (nd : BELNode × Attrs) (x y : BELNode)
    (j : Int) : (mergeNodeStep g nd).edgeData x y j = g.edgeData x y j := by
  unfold BELGraph.edgeData
  rw [mergeNodeStep_keydictOf]

theorem mergeNodeStep_nodeAttrs_of_contains (g : BELGraph) (nd : BELNode × Attrs)
    (n : BELNode) (h : g.containsNode n = true) :
    (mergeNodeStep g nd).nodeAttrs n = g.nodeAttrs n := by
  rcases mergeNodeStep_spec g nd with ⟨_, heq⟩ | ⟨habs, heq⟩
  · rw [heq]
  · rw [heq]
    unfold BELGraph.nodeAttrs
    dsimp only
    have hx : n ≠ nd.1 := by
      intro he
      rw [he] at h
      rw [h] at habs
      exact Bool.true_eq_false.mp habs
    rw [dictGet_dictSet_ne _ _ _ _ hx]

theorem mergeNodeStep_contains_mono (g : BELGraph) (nd : BELNode × Attrs) (n : BELNode)
    (h : g.containsNode n = true) : (mergeNodeStep g nd).containsNode n = true := by
  rcases mergeNodeStep_spec g nd with ⟨_, heq⟩ | ⟨habs, heq⟩
  · rw [heq]
    exact h
  · rw [heq]
    exact dictHas_dictSet_of_has _ _ _ _ h

theorem mergeNodeStep_contains_self (g : BELGraph) (nd : BELNode × Attrs) :
    (mergeNodeStep g nd).containsNode nd.1 = true := by
  rcases mergeNodeStep_spec g nd with ⟨hc, heq⟩ | ⟨habs, heq⟩
  · rw [heq]
    exact hc
  · rw [heq]
    exact dictHas_dictSet_self _ _ _

/-! ## The per-donor-edge merge postcondition -/

theorem edgeData_none_iff (g : BELGraph) (u v : BELNode) (k : Int) :
    g.edgeData u v k = none ↔ dictHas (g.keydictOf u v) k = false := by
  unfold BELGraph.edgeData dictHas
  cases dictGet (g.keydictOf u v) k <;> simp

theorem donorEdgeDone_step (gref g : BELGraph) (e e' : BELNode × BELNode × Int × Attrs)
    (h : donorEdgeDone gref g e) : donorEdgeDone gref (mergeEdgeStep g e') e := by
  unfold donorEdgeDone at h ⊢
  by_cases hk : e.2.2.1 < 0
  · rw [if_pos hk] at h ⊢
    obtain ⟨d', hd', hrest⟩ := h
    exact ⟨d', mergeEdgeStep_edgeData_some g e' e.1 e.2.1 e.2.2.1 d' hd', hrest⟩
  · rw [if_neg hk] at h ⊢
    obtain ⟨p, hp, hrest⟩ := h
    exact ⟨p, mergeEdgeStep_keydict_mem g e' e.1 e.2.1 p hp, hrest⟩

theorem donorEdgeDone_nodeStep (gref g : BELGraph) (e : BELNode × BELNode × Int × Attrs)
    (nd : BELNode × Attrs) (h : donorEdgeDone gref g e) :
    donorEdgeDone gref (mergeNodeStep g nd) e := by
  unfold donorEdgeDone at h ⊢
  by_cases hk : e.2.2.1 < 0
  · rw [if_pos hk] at h ⊢
    rw [mergeNodeStep_edgeData]
    exact h
  · rw [if_neg hk] at h ⊢
    rw [mergeNodeStep_keydictOf]
    exact h

theorem donorEdgeDone_noop (gref g : BELGraph) (e : BELNode × BELNode × Int × Attrs)
    (h : donorEdgeDone gref g e) : mergeEdgeStep g e = g := by
  obtain ⟨u, v, k, d⟩ := e
  unfold donorEdgeDone at h
  simp only [mergeEdgeStep]
  by_cases hk : k < 0
  · rw [if_pos hk]
    rw [if_pos hk] at h
    obtain ⟨d', hd', _⟩ := h
    have hsome : ∃ kd, dictGet (g.succOf u) v = some kd ∧ dictHas kd k = true := by
      unfold BELGraph.edgeData BELGraph.keydictOf at hd'
      cases hkd : dictGet (g.succOf u) v with
      | none =>
          rw [hkd] at hd'
          simp [dictGet] at hd'
      | some kd =>
          rw [hkd] at hd'
          refine ⟨kd, rfl, ?_⟩
          unfold dictHas
          rw [show dictGet kd k = some d' from hd']
          rfl
    obtain ⟨kd, hkd, hhas⟩ := hsome
    rw [if_neg]
    rw [hkd]
    simp [hhas]
  · rw [if_neg hk]
    rw [if_neg hk] at h
    obtain ⟨p, hp, hge, heqv⟩ := h
    cases hkd : dictGet (g.succOf u) v with
    | none =>
        exfalso
        unfold BELGraph.keydictOf at hp
        rw [hkd] at hp
        simp at hp
    | some kd =>
        dsimp only
        rw [if_pos]
        rw [List.any_eq_true]
        refine ⟨p, ?_, ?_⟩
        · unfold BELGraph.keydictOf at hp
          rw [hkd] at hp
          exact hp
        · simp [hge, heqv]

theorem donorEdgeDone_establish (gref g : BELGraph) (e : BELNode × BELNode × Int × Attrs)
    (hwfd : attrsWf e.2.2.2 = true)
    (hpre : e.2.2.1 < 0 → g.edgeData e.1 e.2.1 e.2.2.1 = none ∨ donorEdgeDone gref g e) :
    donorEdgeDone gref (mergeEdgeStep g e) e := by
  obtain ⟨u, v, k, d⟩ := e
  have hnodup : dictNodup d = true := by
    simp only [attrsWf, Bool.and_eq_true] at hwfd
    exact hwfd.1
  have hupd : dictUpd [] d = d := dictUpd_nil d hnodup
  have hrefl : attrsEq d d = true := attrsEq_refl d hwfd
  by_cases hk : k < 0
  · rcases hpre hk with hnone | hdone
    · have hfree : dictHas (BELGraph.keydictOf g u v) k = false :=
        (edgeData_none_iff g u v k).mp hnone
      have hfree' : dictHas (BELGraph.keydictOf g u v) (insKey g u v (some k)) = false :=
        hfree
      have hcond : ((dictGet (g.succOf u) v).isNone
          || !(dictHas ((dictGet (g.succOf u) v).getD []) k)) = true := by
        have : dictHas ((dictGet (g.succOf u) v).getD []) k = false := hfree
        rw [this]
        simp
      have hstep : mergeEdgeStep g (u, v, k, d) = g.add_edge u v (some k) d := by
        simp only [mergeEdgeStep]
        rw [if_pos hk, if_pos hcond]
      unfold donorEdgeDone
      rw [if_pos hk]
      refine ⟨d, ?_, Or.inl hrefl⟩
      show (mergeEdgeStep g (u, v, k, d)).edgeData u v k = some d
      rw [hstep, add_edge_edgeData g u v (some k) d hfree' u v k,
        if_pos ⟨rfl, rfl, rfl⟩, hupd]
    · rw [donorEdgeDone_noop gref g _ hdone]
      exact hdone
  · cases hkd : dictGet (g.succOf u) v with
    | none =>
        have hkdof : BELGraph.keydictOf g u v = [] := by
          unfold BELGraph.keydictOf
          rw [hkd]
          rfl
        have hfree : dictHas (BELGraph.keydictOf g u v) (insKey g u v none) = false := by
          rw [hkdof]
          rfl
        have hins : insKey g u v none = 0 := by
          rw [insKey_of_none_absent g u v hkd none]
          rfl
        have hstep : mergeEdgeStep g (u, v, k, d) = g.add_edge u v none d := by
          simp only [mergeEdgeStep]
          rw [if_neg hk, hkd]
        unfold donorEdgeDone
        rw [if_neg hk]
        show ∃ p ∈ (mergeEdgeStep g (u, v, k, d)).keydictOf u v, 0 ≤ p.1 ∧ attrsEq d p.2 = true
        rw [hstep, add_edge_keydictOf_self g u v none d hfree, hkdof, hins, hupd]
        exact ⟨(0, d), by simp [dictSet], by simp, hrefl⟩
    | some kd =>
        have hkdof : BELGraph.keydictOf g u v = kd := by
          unfold BELGraph.keydictOf
          rw [hkd]
          rfl
        by_cases ha : (kd.any fun gkd => decide (0 ≤ gkd.1) && attrsEq d gkd.2) = true
        · have hstep : mergeEdgeStep g (u, v, k, d) = g := by
            simp only [mergeEdgeStep]
            rw [if_neg hk, hkd]
            dsimp only
            rw [if_pos ha]
          obtain ⟨p, hpmem, hpcond⟩ := List.any_eq_true.mp ha
          rw [Bool.and_eq_true] at hpcond
          unfold donorEdgeDone
          rw [if_neg hk]
          rw [hstep]
          exact ⟨p, hkdof ▸ hpmem, of_decide_eq_true hpcond.1, hpcond.2⟩
        · have hins : insKey g u v none = freshKey kd := insKey_of_some g u v kd hkd none
          have hfree : dictHas (BELGraph.keydictOf g u v) (insKey g u v none) = false := by
            rw [hkdof, hins]
            exact freshKey_not_has kd
          have hstep : mergeEdgeStep g (u, v, k, d) = g.add_edge u v none d := by
            simp only [mergeEdgeStep]
            rw [if_neg hk, hkd]
            dsimp only
            rw [if_neg ha]
          unfold donorEdgeDone
          rw [if_neg hk]
          show ∃ p ∈ (mergeEdgeStep g (u, v, k, d)).keydictOf u v, 0 ≤ p.1 ∧ attrsEq d p.2 = true
          rw [hstep, add_edge_keydictOf_self g u v none d hfree, hupd,
            dictSet_absent _ _ _ hfree, hkdof, hins]
          refine ⟨(freshKey kd, d), List.mem_append_right _ (by simp), freshKey_nonneg kd, hrefl⟩

/-! ## Fold lemmas -/

theorem foldl_preserve {α : Type} (P : BELGraph → Prop) (f : BELGraph → α → BELGraph)
    (hf : ∀ g e, P g → P (f g e)) :
    ∀ (l : List α) (g : BELGraph), P g → P (l.foldl f g) := by
  intro l
  induction l with
  | nil => intro g hg; exact hg
  | cons e t ih =>
      intro g hg
      rw [List.foldl_cons]
      exact ih _ (hf g e hg)

theorem foldl_noop {α : Type} (f : BELGraph → α → BELGraph) (l : List α) (g : BELGraph)
    (h : ∀ e ∈ l, f g e = g) : l.foldl f g = g := by
  induction l with
  | nil => rfl
  | cons e t ih =>
      rw [List.foldl_cons, h e (List.mem_cons_self _ _)]
      exact ih (fun e' h' => h e' (List.mem_cons_of_mem _ h'))

theorem donorEdgePre_step (gref g : BELGraph) (e e' : BELNode × BELNode × Int × Attrs)
    (hne : (e.1, e.2.1, e.2.2.1) ≠ (e'.1, e'.2.1, e'.2.2.1))
    (h : donorEdgePre gref g e) : donorEdgePre gref (mergeEdgeStep g e') e := by
  intro hk
  rcases h hk with hnone | hdone
  · left
    rw [mergeEdgeStep_edgeData_neg_ne g e' e.1 e.2.1 e.2.2.1 hk ?_]
    · exact hnone
    · rintro ⟨h1, h2, h3⟩
      exact hne (by rw [h1, h2, h3])
  · exact Or.inr (donorEdgeDone_step gref g e e' hdone)

theorem mergeEdge_fold_done (gref : BELGraph) :
    ∀ (l : List (BELNode × BELNode × Int × Attrs)) (g : BELGraph),
      (∀ e ∈ l, attrsWf e.2.2.2 = true) →
      (l.Pairwise fun a b => (a.1, a.2.1, a.2.2.1) ≠ (b.1, b.2.1, b.2.2.1)) →
      (∀ e ∈ l, donorEdgePre gref g e) →
      ∀ e ∈ l, donorEdgeDone gref (l.foldl mergeEdgeStep g) e := by
  intro l
  induction l with
  | nil =>
      intro g _ _ _ e he
      simp at he
  | cons e0 t ih =>
      intro g hwf hpw hpre e he
      rw [List.foldl_cons]
      rw [List.pairwise_cons] at hpw
      have hdone0 : donorEdgeDone gref (mergeEdgeStep g e0) e0 :=
        donorEdgeDone_establish gref g e0 (hwf e0 (List.mem_cons_self _ _))
          (hpre e0 (List.mem_cons_self _ _))
      rcases List.mem_cons.mp he with rfl | het
      · exact foldl_preserve (fun gc => donorEdgeDone gref gc e) mergeEdgeStep
          (fun g' e' hd => donorEdgeDone_step gref g' e e' hd) t (mergeEdgeStep g e) hdone0
      · refine ih (mergeEdgeStep g e0)
          (fun e' h' => hwf e' (List.mem_cons_of_mem _ h')) hpw.2 ?_ e het
        intro e' h'
        exact donorEdgePre_step gref g e' e0 (Ne.symm (hpw.1 e' h'))
          (hpre e' (List.mem_cons_of_mem _ h'))

theorem mergeNode_fold_edgeData (l : List (BELNode × Attrs)) :
    ∀ (g : BELGraph) (x y : BELNode) (j : Int),
      (l.foldl mergeNodeStep g).edgeData x y j = g.edgeData x y j := by
  induction l with
  | nil => intro g x y j; rfl
  | cons nd t ih =>
      intro g x y j
      rw [List.foldl_cons, ih, mergeNodeStep_edgeData]

theorem mergeNode_fold_keydictOf (l : List (BELNode × Attrs)) :
    ∀ (g : BELGraph) (x y : BELNode),
      (l.foldl mergeNodeStep g).keydictOf x y = g.keydictOf x y := by
  induction l with
  | nil => intro g x y; rfl
  | cons nd t ih =>
      intro g x y
      rw [List.foldl_cons, ih, mergeNodeStep_keydictOf]

theorem mergeNode_fold_fields (l : List (BELNode × Attrs)) :
    ∀ g : BELGraph,
      (l.foldl mergeNodeStep g).warnings = g.warnings ∧
        (l.foldl mergeNodeStep g).graphAttrs = g.graphAttrs ∧
        (l.foldl mergeNodeStep g).hasSingletonTerms = g.hasSingletonTerms := by
  induction l with
  | nil => intro g; exact ⟨rfl, rfl, rfl⟩
  | cons nd t ih =>
      intro g
      rw [List.foldl_cons]
      obtain ⟨h1, h2, h3⟩ := ih (mergeNodeStep g nd)
      obtain ⟨j1, j2, j3⟩ := mergeNodeStep_fields g nd
      exact ⟨h1.trans j1, h2.trans j2, h3.trans j3⟩

theorem mergeNode_fold_contains_all (l : List (BELNode × Attrs)) :
    ∀ (g : BELGraph) (nd : BELNode × Attrs), nd ∈ l →
      (l.foldl mergeNodeStep g).containsNode nd.1 = true := by
  induction l with
  | nil =>
      intro g nd h
      simp at h
  | cons nd0 t ih =>
      intro g nd h
      rw [List.foldl_cons]
      rcases List.mem_cons.mp h with rfl | ht
      · exact foldl_preserve (fun gc => gc.containsNode nd.1 = true) mergeNodeStep
          (fun g' nd' hc => mergeNodeStep_contains_mono g' nd' nd.1 hc) t
          (mergeNodeStep g nd) (mergeNodeStep_contains_self g nd)
      · exact ih (mergeNodeStep g nd0) nd ht

theorem mergeNode_fold_contains_mono (l : List (BELNode × Attrs)) (g : BELGraph)
    (n : BELNode) (h : g.containsNode n = true) :
    (l.foldl mergeNodeStep g).containsNode n = true :=
  foldl_preserve (fun gc => gc.containsNode n = true) mergeNodeStep
    (fun g' nd' hc => mergeNodeStep_contains_mono g' nd' n hc) l g h

theorem mergeNode_fold_nodeAttrs_of_contains (l : List (BELNode × Attrs)) (g : BELGraph)
    (n : BELNode) (h : g.containsNode n = true) :
    (l.foldl mergeNodeStep g).nodeAttrs n = g.nodeAttrs n := by
  have := foldl_preserve
    (fun gc => gc.containsNode n = true ∧ gc.nodeAttrs n = g.nodeAttrs n) mergeNodeStep
    (fun g' nd' hc => ⟨mergeNodeStep_contains_mono g' nd' n hc.1,
      (mergeNodeStep_nodeAttrs_of_contains g' nd' n hc.1).trans hc.2⟩) l g ⟨h, rfl⟩
  exact this.2

theorem mergeEdge_fold_edgeData_some (l : List (BELNode × BELNode × Int × Attrs))
    (g : BELGraph) (x y : BELNode) (j : Int) (d : Attrs) (h : g.edgeData x y j = some d) :
    (l.foldl mergeEdgeStep g).edgeData x y j = some d :=
  foldl_preserve (fun gc => gc.edgeData x y j = some d) mergeEdgeStep
    (fun g' e' hc => mergeEdgeStep_edgeData_some g' e' x y j d hc) l g h

theorem mergeEdge_fold_contains_mono (l : List (BELNode × BELNode × Int × Attrs))
    (g : BELGraph) (n : BELNode) (h : g.containsNode n = true) :
    (l.foldl mergeEdgeStep g).containsNode n = true :=
  foldl_preserve (fun gc => gc.containsNode n = true) mergeEdgeStep
    (fun g' e' hc => mergeEdgeStep_contains_mono g' e' n hc) l g h

theorem mergeEdge_fold_nodeAttrs_of_contains (l : List (BELNode × BELNode × Int × Attrs))
    (g : BELGraph) (n : BELNode) (h : g.containsNode n = true) :
    (l.foldl mergeEdgeStep g).nodeAttrs n = g.nodeAttrs n := by
  have := foldl_preserve
    (fun gc => gc.containsNode n = true ∧ gc.nodeAttrs n = g.nodeAttrs n) mergeEdgeStep
    (fun g' e' hc => ⟨mergeEdgeStep_contains_mono g' e' n hc.1,
      (mergeEdgeStep_nodeAttrs_of_contains g' e' n hc.1).trans hc.2⟩) l g ⟨h, rfl⟩
  exact this.2

theorem mergeEdge_fold_fields (l : List (BELNode × BELNode × Int × Attrs)) :
    ∀ g : BELGraph,
      (l.foldl mergeEdgeStep g).warnings = g.warnings ∧
        (l.foldl mergeEdgeStep g).graphAttrs = g.graphAttrs ∧
        (l.foldl mergeEdgeStep g).hasSingletonTerms = g.hasSingletonTerms := by
  induction l with
  | nil => intro g; exact ⟨rfl, rfl, rfl⟩
  | cons e t ih =>
      intro g
      rw [List.foldl_cons]
      obtain ⟨h1, h2, h3⟩ := ih (mergeEdgeStep g e)
      obtain ⟨j1, j2, j3⟩ := mergeEdgeStep_fields g e
      exact ⟨h1.trans j1, h2.trans j2, h3.trans j3⟩

/-! ## Extracting facts from graph well-formedness -/

theorem dictNodup_pairwise {K V : Type} [DecidableEq K] (d : List (K × V))
    (h : dictNodup d = true) : d.Pairwise (fun a b => a.1 ≠ b.1) := by
  induction d with
  | nil => exact List.Pairwise.nil
  | cons kv t ih =>
      obtain ⟨k, v⟩ := kv
      simp only [dictNodup, Bool.and_eq_true, Bool.not_eq_true'] at h
      refine List.pairwise_cons.mpr ⟨?_, ih h.2⟩
      intro b hb heq
      have hmem : (b.1, b.2) ∈ t := by simpa using hb
      rw [← heq] at hmem
      exact dictHas_false_not_mem h.1 b.2 hmem

theorem wfGraph_parts (g : BELGraph) (h : wfGraph g = true) :
    dictNodup g.nodes = true ∧
      ∀ un ∈ g.nodes, attrsWf un.2.attrs = true ∧ dictNodup un.2.succ = true ∧
        ∀ vn ∈ un.2.succ, dictNodup vn.2 = true ∧ ∀ kd ∈ vn.2, attrsWf kd.2 = true := by
  simp only [wfGraph, wfSucc, Bool.and_eq_true, List.all_eq_true] at h
  refine ⟨h.1, ?_⟩
  intro un hun
  exact h.2 un hun

theorem edgesList_inner_fst (un : BELNode × NodeData)
    (x : BELNode × BELNode × Int × Attrs)
    (hx : x ∈ un.2.succ.flatMap fun vn => vn.2.map fun kd => (un.1, vn.1, kd.1, kd.2)) :
    x.1 = un.1 := by
  rw [List.mem_flatMap] at hx
  obtain ⟨vn, _, hx⟩ := hx
  rw [List.mem_map] at hx
  obtain ⟨kd, _, rfl⟩ := hx
  rfl

theorem edgesList_map_fst (un : BELNode × NodeData) (vn : BELNode × List (Int × Attrs))
    (x : BELNode × BELNode × Int × Attrs)
    (hx : x ∈ vn.2.map fun kd => (un.1, vn.1, kd.1, kd.2)) : x.2.1 = vn.1 := by
  rw [List.mem_map] at hx
  obtain ⟨kd, _, rfl⟩ := hx
  rfl

theorem mem_edgesList_elim (g : BELGraph) (e : BELNode × BELNode × Int × Attrs)
    (he : e ∈ g.edgesList) :
    ∃ un ∈ g.nodes, ∃ vn ∈ un.2.succ, ∃ kd ∈ vn.2,
      e = (un.1, vn.1, kd.1, kd.2) := by
  unfold BELGraph.edgesList at he
  rw [List.mem_flatMap] at he
  obtain ⟨un, hun, he⟩ := he
  rw [List.mem_flatMap] at he
  obtain ⟨vn, hvn, he⟩ := he
  rw [List.mem_map] at he
  obtain ⟨kd, hkd, rfl⟩ := he
  exact ⟨un, hun, vn, hvn, kd, hkd, rfl⟩

theorem wfGraph_edge_attrs (g : BELGraph) (h : wfGraph g = true) :
    ∀ e ∈ g.edgesList, attrsWf e.2.2.2 = true := by
  intro e he
  obtain ⟨_, hparts⟩ := wfGraph_parts g h
  obtain ⟨un, hun, vn, hvn, kd, hkd, rfl⟩ := mem_edgesList_elim g e he
  exact ((hparts un hun).2.2 vn hvn).2 kd hkd

theorem wfGraph_pairwise (g : BELGraph) (h : wfGraph g = true) :
    g.edgesList.Pairwise
      (fun a b => (a.1, a.2.1, a.2.2.1) ≠ (b.1, b.2.1, b.2.2.1)) := by
  obtain ⟨hnodes, hparts⟩ := wfGraph_parts g h
  unfold BELGraph.edgesList
  rw [show (g.nodes.flatMap fun un =>
      un.2.succ.flatMap fun vn => vn.2.map fun kd => (un.1, vn.1, kd.1, kd.2)) =
    (g.nodes.map fun un =>
      un.2.succ.flatMap fun vn => vn.2.map fun kd => (un.1, vn.1, kd.1, kd.2)).flatten
    from rfl]
  rw [List.pairwise_flatten]
  constructor
  · intro inner hinner
    rw [List.mem_map] at hinner
    obtain ⟨un, hun, rfl⟩ := hinner
    obtain ⟨_, hsnd, hrest⟩ := hparts un hun
    rw [show (un.2.succ.flatMap fun vn => vn.2.map fun kd => (un.1, vn.1, kd.1, kd.2)) =
      (un.2.succ.map fun vn => vn.2.map fun kd => (un.1, vn.1, kd.1, kd.2)).flatten
      from rfl]
    rw [List.pairwise_flatten]
    constructor
    · intro inner2 hinner2
      rw [List.mem_map] at hinner2
      obtain ⟨vn, hvn, rfl⟩ := hinner2
      rw [List.pairwise_map]
      refine List.Pairwise.imp ?_ (dictNodup_pairwise vn.2 (hrest vn hvn).1)
      intro kd kd' hne heq
      exact hne (congrArg (fun t => t.2.2) heq)
    · rw [List.pairwise_map]
      refine List.Pairwise.imp ?_ (dictNodup_pairwise un.2.succ hsnd)
      intro vn vn' hne x hx y hy heq
      have h1 : x.2.1 = vn.1 := edgesList_map_fst un vn x hx
      have h2 : y.2.1 = vn'.1 := edgesList_map_fst un vn' y hy
      apply hne
      have := congrArg (fun t => t.2.1) heq
      simp only at this
      rw [h1, h2] at this
      exact this
  · rw [List.pairwise_map]
    refine List.Pairwise.imp ?_ (dictNodup_pairwise g.nodes hnodes)
    intro un un' hne x hx y hy heq
    have h1 : x.1 = un.1 := edgesList_inner_fst un x hx
    have h2 : y.1 = un'.1 := edgesList_inner_fst un' y hy
    apply hne
    have := congrArg (fun t => t.1) heq
    simp only at this
    rw [h1, h2] at this
    exact this

theorem wfGraph_keydict_nodup (g : BELGraph) (u v : BELNode) (h : wfGraph g = true) :
    dictNodup (g.keydictOf u v) = true := by
  obtain ⟨_, hparts⟩ := wfGraph_parts g h
  unfold BELGraph.keydictOf BELGraph.succOf
  cases hg : dictGet g.nodes u with
  | none => rfl
  | some nd =>
      simp only [Option.map_some', Option.getD_some]
      cases hs : dictGet nd.succ v with
      | none => rfl
      | some kd =>
          simp only [Option.getD_some]
          have hun : (u, nd) ∈ g.nodes := mem_of_dictGet hg
          have hvn : (v, kd) ∈ nd.succ := mem_of_dictGet hs
          exact ((hparts (u, nd) hun).2.2 (v, kd) hvn).1

/-! ## Assembling `left_full_merge` -/

theorem nodes_iter_nil (h : BELGraph) : h.nodes_iter [] = h.nodesList := by
  unfold BELGraph.nodes_iter
  exact List.filter_eq_self.mpr (fun a _ => rfl)

theorem edges_iter_nil (h : BELGraph) : h.edges_iter [] = h.edgesList := by
  unfold BELGraph.edges_iter
  exact List.filter_eq_self.mpr (fun a _ => rfl)

theorem left_full_merge_eq (g h : BELGraph) :
    left_full_merge g h =
      h.edgesList.foldl mergeEdgeStep (h.nodesList.foldl mergeNodeStep g) := by
  unfold left_full_merge
  rw [nodes_iter_nil, edges_iter_nil]

theorem donorEdgePre_nodePhase (g : BELGraph) (l : List (BELNode × Attrs))
    (e : BELNode × BELNode × Int × Attrs) :
    donorEdgePre g (l.foldl mergeNodeStep g) e := by
  intro hk
  cases hd : g.edgeData e.1 e.2.1 e.2.2.1 with
  | none =>
      left
      rw [mergeNode_fold_edgeData]
      exact hd
  | some d' =>
      right
      unfold donorEdgeDone
      rw [if_pos hk]
      refine ⟨d', ?_, Or.inr hd⟩
      rw [mergeNode_fold_edgeData]
      exact hd

theorem left_full_merge_done (g h : BELGraph) (hwf : wfGraph h = true) :
    ∀ e ∈ h.edgesList, donorEdgeDone g (left_full_merge g h) e := by
  rw [left_full_merge_eq]
  exact mergeEdge_fold_done g h.edgesList (h.nodesList.foldl mergeNodeStep g)
    (wfGraph_edge_attrs h hwf) (wfGraph_pairwise h hwf)
    (fun e _ => donorEdgePre_nodePhase g h.nodesList e)

theorem left_full_merge_contains_h (g h : BELGraph) (nd : BELNode × Attrs)
    (hnd : nd ∈ h.nodesList) : (left_full_merge g h).containsNode nd.1 = true := by
  rw [left_full_merge_eq]
  exact mergeEdge_fold_contains_mono h.edgesList _ nd.1
    (mergeNode_fold_contains_all h.nodesList g nd hnd)

theorem left_full_merge_edgeData_some (g h : BELGraph) (x y : BELNode) (j : Int)
    (d : Attrs) (hd : g.edgeData x y j = some d) :
    (left_full_merge g h).edgeData x y j = some d := by
  rw [left_full_merge_eq]
  apply mergeEdge_fold_edgeData_some
  rw [mergeNode_fold_edgeData]
  exact hd

theorem left_full_merge_contains_mono (g h : BELGraph) (n : BELNode)
    (hc : g.containsNode n = true) : (left_full_merge g h).containsNode n = true := by
  rw [left_full_merge_eq]
  exact mergeEdge_fold_contains_mono h.edgesList _ n
    (mergeNode_fold_contains_mono h.nodesList g n hc)

theorem left_full_merge_nodeAttrs_of_contains (g h : BELGraph) (n : BELNode)
    (hc : g.containsNode n = true) :
    (left_full_merge g h).nodeAttrs n = g.nodeAttrs n := by
  rw [left_full_merge_eq]
  rw [mergeEdge_fold_nodeAttrs_of_contains h.edgesList _ n
    (mergeNode_fold_contains_mono h.nodesList g n hc)]
  exact mergeNode_fold_nodeAttrs_of_contains h.nodesList g n hc

theorem left_full_merge_fields (g h : BELGraph) :
    (left_full_merge g h).warnings = g.warnings ∧
      (left_full_merge g h).graphAttrs = g.graphAttrs ∧
      (left_full_merge g h).hasSingletonTerms = g.hasSingletonTerms := by
  rw [left_full_merge_eq]
  obtain ⟨h1, h2, h3⟩ := mergeEdge_fold_fields h.edgesList (h.nodesList.foldl mergeNodeStep g)
  obtain ⟨j1, j2, j3⟩ := mergeNode_fold_fields h.nodesList g
  exact ⟨h1.trans j1, h2.trans j2, h3.trans j3⟩

theorem containsNode_of_nodeAttrs (g : BELGraph) (n : BELNode) (a : Attrs)
    (h : g.nodeAttrs n = some a) : g.containsNode n = true := by
  unfold BELGraph.nodeAttrs at h
  unfold BELGraph.containsNode dictHas
  cases hg : dictGet g.nodes n with
  | none => rw [hg] at h; simp at h
  | some nd => rfl

/-! ## Claims about `left_full_merge` -/

/-- **C1** (amended).  After `left_full_merge g h` (for a donor `h` whose
dictionaries are well-formed, as every Python graph's are): every node of
`h` is a node of the result; for every qualified edge of `h` (key `≥ 0`)
with data `d` there is an edge between the same ordered pair with a
non-negative key whose attributes are `==`-equal to `d`; for every
unqualified edge of `h` (key `k < 0`) an edge with key `k` exists between
the pair and its attributes are `==`-equal to `h`'s or are the attributes
`g` already stored at that key before the merge (first-write-wins); every
node and edge of `g` keeps its attributes.  `h` itself is untouched: the
merge is a pure function of `g` that never writes to `h`. -/
theorem claim_C1_merge_additive (g h : BELGraph) (hwf : wfGraph h = true) :
    (∀ nd ∈ h.nodesList, (left_full_merge g h).containsNode nd.1 = true) ∧
    (∀ e ∈ h.edgesList, 0 ≤ e.2.2.1 →
      ∃ p ∈ (left_full_merge g h).keydictOf e.1 e.2.1,
        0 ≤ p.1 ∧ attrsEq e.2.2.2 p.2 = true) ∧
    (∀ e ∈ h.edgesList, e.2.2.1 < 0 →
      ∃ d', (left_full_merge g h).edgeData e.1 e.2.1 e.2.2.1 = some d' ∧
        (attrsEq e.2.2.2 d' = true ∨ g.edgeData e.1 e.2.1 e.2.2.1 = some d')) ∧
    (∀ n a, g.nodeAttrs n = some a → (left_full_merge g h).nodeAttrs n = some a) ∧
    (∀ x y : BELNode, ∀ j : Int, ∀ d : Attrs,
      g.edgeData x y j = some d → (left_full_merge g h).edgeData x y j = some d) := by
  have hdone := left_full_merge_done g h hwf
  refine ⟨fun nd hnd => left_full_merge_contains_h g h nd hnd, ?_, ?_, ?_, ?_⟩
  · intro e he hk
    have := hdone e he
    unfold donorEdgeDone at this
    rw [if_neg (by omega : ¬e.2.2.1 < 0)] at this
    exact this
  · intro e he hk
    have := hdone e he
    unfold donorEdgeDone at this
    rw [if_pos hk] at this
    exact this
  · intro n a ha
    rw [left_full_merge_nodeAttrs_of_contains g h n (containsNode_of_nodeAttrs g n a ha)]
    exact ha
  · intro x y j d hd
    exact left_full_merge_edgeData_some g h x y j d hd

/-- Witness for **C1** at the concrete receiver/donor pair. -/
theorem claim_C1_merge_additive_witness :
    wfGraph exDonor = true ∧
      ((∀ nd ∈ exDonor.nodesList,
          (left_full_merge exReceiver exDonor).containsNode nd.1 = true) ∧
       (∀ e ∈ exDonor.edgesList, 0 ≤ e.2.2.1 →
          ∃ p ∈ (left_full_merge exReceiver exDonor).keydictOf e.1 e.2.1,
            0 ≤ p.1 ∧ attrsEq e.2.2.2 p.2 = true) ∧
       (∀ e ∈ exDonor.edgesList, e.2.2.1 < 0 →
          ∃ d', (left_full_merge exReceiver exDonor).edgeData e.1 e.2.1 e.2.2.1 = some d' ∧
            (attrsEq e.2.2.2 d' = true ∨
              exReceiver.edgeData e.1 e.2.1 e.2.2.1 = some d')) ∧
       (∀ n a, exReceiver.nodeAttrs n = some a →
          (left_full_merge exReceiver exDonor).nodeAttrs n = some a) ∧
       (∀ x y : BELNode, ∀ j : Int, ∀ d : Attrs,
          exReceiver.edgeData x y j = some d →
            (left_full_merge exReceiver exDonor).edgeData x y j = some d)) :=
  ⟨by decide, claim_C1_merge_additive exReceiver exDonor (by decide)⟩

/-- **C1** counterexample to the claim as stated: `exDonor` has the edge
`(exNodeA, exNodeB)` with key `-1` and attributes `exAttrsB`, but after
`left_full_merge exReceiver exDonor` no edge between that pair has
attributes `==`-equal to `exAttrsB` — the receiver already had key `-1`
with different attributes, and the merge keeps them, copying nothing. -/
theorem claim_C1_counterexample :
    (exNodeA, exNodeB, -1, exAttrsB) ∈ exDonor.edgesList ∧
      ∀ p ∈ (left_full_merge exReceiver exDonor).keydictOf exNodeA exNodeB,
        attrsEq exAttrsB p.2 = false := by
  decide

/-- **C2**.  Merging the same well-formed donor twice in a row leaves the
receiver in exactly the state one merge produces: the second call is a
no-op (it adds no qualified edge whose attributes equal an existing one's
and no duplicate unqualified edge). -/
theorem claim_C2_merge_idempotent (g h : BELGraph) (hwf : wfGraph h = true) :
    left_full_merge (left_full_merge g h) h = left_full_merge g h := by
  have hdone := left_full_merge_done g h hwf
  rw [left_full_merge_eq (left_full_merge g h) h]
  have hnodes : h.nodesList.foldl mergeNodeStep (left_full_merge g h) =
      left_full_merge g h := by
    apply foldl_noop
    intro nd hnd
    unfold mergeNodeStep
    rw [if_pos (left_full_merge_contains_h g h nd hnd)]
  rw [hnodes]
  apply foldl_noop
  intro e he
  exact donorEdgeDone_noop g (left_full_merge g h) e (hdone e he)

/-- Witness for **C2** at the concrete receiver/donor pair. -/
theorem claim_C2_merge_idempotent_witness :
    wfGraph exDonor = true ∧
      left_full_merge (left_full_merge exReceiver exDonor) exDonor =
        left_full_merge exReceiver exDonor :=
  ⟨by decide, claim_C2_merge_idempotent exReceiver exDonor (by decide)⟩

/-- **C8**.  When both graphs store the same node key with `==`-different
attribute dicts, the merge silently keeps the receiver's attributes
unchanged and records nothing: the warning log is exactly `g`'s.  (The
merge is total, so no error is raised.) -/
theorem claim_C8_node_conflict_receiver_wins (g h : BELGraph) (n : BELNode)
    (ag ah : Attrs) (hg : g.nodeAttrs n = some ag) (hh : h.nodeAttrs n = some ah)
    (hdiff : attrsEq ag ah = false) :
    (left_full_merge g h).nodeAttrs n = some ag ∧
      (left_full_merge g h).warnings = g.warnings := by
  refine ⟨?_, (left_full_merge_fields g h).1⟩
  rw [left_full_merge_nodeAttrs_of_contains g h n (containsNode_of_nodeAttrs g n ag hg)]
  exact hg

/-- Witness for **C8** at a concrete conflicting pair. -/
theorem claim_C8_node_conflict_receiver_wins_witness :
    exReceiverN.nodeAttrs exNodeA = some [(NAME, Value.vstr "a1")] ∧
      exDonorN.nodeAttrs exNodeA = some [(NAME, Value.vstr "a2")] ∧
      attrsEq [(NAME, Value.vstr "a1")] [(NAME, Value.vstr "a2")] = false ∧
      ((left_full_merge exReceiverN exDonorN).nodeAttrs exNodeA =
          some [(NAME, Value.vstr "a1")] ∧
        (left_full_merge exReceiverN exDonorN).warnings = exReceiverN.warnings) :=
  ⟨by decide, by decide, by decide,
    claim_C8_node_conflict_receiver_wins exReceiverN exDonorN exNodeA
      [(NAME, Value.vstr "a1")] [(NAME, Value.vstr "a2")]
      (by decide) (by decide) (by decide)⟩

/-! ## Remaining claims on the BELGraph API -/

theorem add_simple_node_contains (g : BELGraph) (f ns nm : String) :
    (g.add_simple_node f ns nm).containsNode (f, ns, nm) = true := by
  unfold BELGraph.add_simple_node
  by_cases h : g.containsNode (f, ns, nm) = true
  · rw [if_pos h]
    exact h
  · rw [if_neg h]
    unfold BELGraph.add_node
    rw [if_neg h]
    exact dictHas_dictSet_self _ _ _

theorem set_node_label_contains (g : BELGraph) (node : BELNode) (lbl : String)
    (n : BELNode) (h : g.containsNode n = true) :
    (g.set_node_label node lbl).containsNode n = true := by
  unfold BELGraph.set_node_label BELGraph.containsNode
  dsimp only
  rw [dictHas_dictModify]
  exact h

/-- **C3**.  For any graph whose dictionaries are well-formed (as all Python
graphs are), a relation `r` carrying a reserved unqualified key `k`: one
call of `add_unqualified_edge` leaves exactly one edge with key `k` between
the ordered pair, and a second call succeeds returning the graph unchanged
(a no-op), so any sequence of such calls leaves at most one such edge. -/
theorem claim_C3_unqualified_edge_unique (g : BELGraph) (u v : BELNode) (r : String)
    (k : Int) (hcode : unqualified_edge_code r = some k) (hwf : wfGraph g = true) :
    ∃ g1, g.add_unqualified_edge u v r = some g1 ∧
      g1.add_unqualified_edge u v r = some g1 ∧
      g1.has_edge u v k = true ∧
      countKey (g1.keydictOf u v) k = 1 := by
  have hnodup : dictNodup (g.keydictOf u v) = true := wfGraph_keydict_nodup g u v hwf
  have hcall : ∀ gc : BELGraph, gc.add_unqualified_edge u v r =
      some (if gc.has_edge u v k = true then gc
        else gc.add_edge u v (some k)
          [(RELATION, Value.vstr r), (ANNOTATIONS, Value.vdict [])]) := by
    intro gc
    unfold BELGraph.add_unqualified_edge
    rw [hcode]
  by_cases hhe : g.has_edge u v k = true
  · refine ⟨g, ?_, ?_, hhe, countKey_one _ _ hnodup hhe⟩
    · rw [hcall g, if_pos hhe]
    · rw [hcall g, if_pos hhe]
  ·
    have hfree : dictHas (g.keydictOf u v) k = false := by
      have : g.has_edge u v k = false := by simpa using hhe
      exact this
    have hfree' : dictHas (g.keydictOf u v) (insKey g u v (some k)) = false := hfree
    set g1 := g.add_edge u v (some k)
      [(RELATION, Value.vstr r), (ANNOTATIONS, Value.vdict [])] with hg1
    have hkd1 : g1.keydictOf u v =
        dictSet (g.keydictOf u v) k
          (dictUpd [] [(RELATION, Value.vstr r), (ANNOTATIONS, Value.vdict [])]) :=
      add_edge_keydictOf_self g u v (some k) _ hfree'
    have hhas1 : dictHas (g1.keydictOf u v) k = true := by
      rw [hkd1]
      exact dictHas_dictSet_self _ _ _
    have hedge1 : g1.has_edge u v k = true := hhas1
    refine ⟨g1, ?_, ?_, hedge1, ?_⟩
    · rw [hcall g, if_neg hhe]
    · rw [hcall g1, if_pos hedge1]
    · rw [hkd1]
      exact countKey_one _ _ (dictNodup_dictSet _ _ _ hnodup)
        (dictHas_dictSet_self _ _ _)

/-- Witness for **C3** on the empty graph and the relation `hasComponent`
(reserved key `-3`). -/
theorem claim_C3_unqualified_edge_unique_witness :
    unqualified_edge_code "hasComponent" = some (-3) ∧ wfGraph BELGraph.empty = true ∧
      ∃ g1, BELGraph.empty.add_unqualified_edge exNodeA exNodeB "hasComponent" = some g1 ∧
        g1.add_unqualified_edge exNodeA exNodeB "hasComponent" = some g1 ∧
        g1.has_edge exNodeA exNodeB (-3) = true ∧
        countKey (g1.keydictOf exNodeA exNodeB) (-3) = 1 :=
  ⟨by decide, by decide,
    claim_C3_unqualified_edge_unique BELGraph.empty exNodeA exNodeB "hasComponent" (-3)
      (by decide) (by decide)⟩

/-- **C5**.  `edges_iter` (resp. `nodes_iter`) with constraint set `c`
yields exactly the edges (nodes) of the graph whose attribute dict
sub-dictionary-matches `c`; with no constraints they yield every edge
(node); the result is a finite list; and the sub-dictionary match holds
precisely when every constraint key is present with a `==`-equal value
(extra attributes ignored). -/
theorem claim_C5_filtered_iteration (g : BELGraph) (c : Attrs) :
    (∀ e, e ∈ g.edges_iter c ↔ e ∈ g.edgesList ∧ subdict_matches e.2.2.2 c = true) ∧
    (∀ nd, nd ∈ g.nodes_iter c ↔ nd ∈ g.nodesList ∧ subdict_matches nd.2 c = true) ∧
    g.edges_iter [] = g.edgesList ∧
    g.nodes_iter [] = g.nodesList ∧
    (∀ d : Attrs, subdict_matches d c = true ↔
      ∀ kv ∈ c, ∃ v', dictGet d kv.1 = some v' ∧ valueEq kv.2 v' = true) := by
  refine ⟨?_, ?_, edges_iter_nil g, nodes_iter_nil g, ?_⟩
  · intro e
    unfold BELGraph.edges_iter
    exact List.mem_filter
  · intro nd
    unfold BELGraph.nodes_iter
    exact List.mem_filter
  · intro d
    unfold subdict_matches
    rw [List.all_eq_true]
    constructor
    · intro hall kv hkv
      have hthis := hall kv hkv
      cases hg : dictGet d kv.1 with
      | none =>
          rw [hg] at hthis
          simp at hthis
      | some v' =>
          rw [hg] at hthis
          exact ⟨v', rfl, hthis⟩
    · intro hex kv hkv
      obtain ⟨v', hv', heq⟩ := hex kv hkv
      rw [hv']
      exact heq

/-- **C6**.  The three edge-attribute getters fail with a lookup failure
(`none`, modelling the `KeyError`) whenever no edge with the given key
exists between the pair; when such an edge exists they return the lookup
of its `citation`, `evidence` and `annotations` attributes respectively. -/
theorem claim_C6_edge_getters (g : BELGraph) (u v : BELNode) (k : Int) :
    (g.edgeData u v k = none →
      g.get_edge_citation u v k = none ∧ g.get_edge_evidence u v k = none ∧
        g.get_edge_annotations u v k = none) ∧
    (∀ d, g.edgeData u v k = some d →
      g.get_edge_citation u v k = dictGet d CITATION ∧
        g.get_edge_evidence u v k = dictGet d EVIDENCE ∧
        g.get_edge_annotations u v k = dictGet d ANNOTATIONS) := by
  constructor
  · intro h
    unfold BELGraph.get_edge_citation BELGraph.get_edge_evidence
      BELGraph.get_edge_annotations
    rw [h]
    exact ⟨rfl, rfl, rfl⟩
  · intro d h
    unfold BELGraph.get_edge_citation BELGraph.get_edge_evidence
      BELGraph.get_edge_annotations
    rw [h]
    exact ⟨rfl, rfl, rfl⟩

/-- Witness for **C6**: the getters fail on a missing edge key of the empty
graph and return the stored attributes on `exCited`'s edge `0`. -/
theorem claim_C6_edge_getters_witness :
    (BELGraph.empty.edgeData exNodeA exNodeB 0 = none ∧
      (BELGraph.empty.get_edge_citation exNodeA exNodeB 0 = none ∧
        BELGraph.empty.get_edge_evidence exNodeA exNodeB 0 = none ∧
        BELGraph.empty.get_edge_annotations exNodeA exNodeB 0 = none)) ∧
    (exCited.edgeData exNodeA exNodeB 0 =
        some [(CITATION, Value.vstr "12345"), (EVIDENCE, Value.vstr "ev"),
          (ANNOTATIONS, Value.vdict [])] ∧
      (exCited.get_edge_citation exNodeA exNodeB 0 =
          dictGet [(CITATION, Value.vstr "12345"), (EVIDENCE, Value.vstr "ev"),
            (ANNOTATIONS, Value.vdict [])] CITATION ∧
        exCited.get_edge_evidence exNodeA exNodeB 0 =
          dictGet [(CITATION, Value.vstr "12345"), (EVIDENCE, Value.vstr "ev"),
            (ANNOTATIONS, Value.vdict [])] EVIDENCE ∧
        exCited.get_edge_annotations exNodeA exNodeB 0 =
          dictGet [(CITATION, Value.vstr "12345"), (EVIDENCE, Value.vstr "ev"),
            (ANNOTATIONS, Value.vdict [])] ANNOTATIONS)) :=
  ⟨⟨by decide, (claim_C6_edge_getters BELGraph.empty exNodeA exNodeB 0).1 (by decide)⟩,
   ⟨by decide, (claim_C6_edge_getters exCited exNodeA exNodeB 0).2 _ (by decide)⟩⟩

/-- **C7**.  `add_simple_node` is an idempotent insert by composite key on a
well-formed graph: after one call exactly one node with the key exists; a
second call returns the graph unchanged; more generally it is a no-op on
any graph already containing the key — in particular after a label was set
in between, the label (and every other attribute) survives. -/
theorem claim_C7_add_simple_node_idempotent (g : BELGraph) (f ns nm : String)
    (hwf : wfGraph g = true) :
    countKey (g.add_simple_node f ns nm).nodes (f, ns, nm) = 1 ∧
      (g.add_simple_node f ns nm).add_simple_node f ns nm = g.add_simple_node f ns nm ∧
      (∀ g' : BELGraph, g'.containsNode (f, ns, nm) = true →
        g'.add_simple_node f ns nm = g') ∧
      (∀ lbl : String,
        ((g.add_simple_node f ns nm).set_node_label (f, ns, nm) lbl).add_simple_node f ns nm
          = (g.add_simple_node f ns nm).set_node_label (f, ns, nm) lbl) := by
  have hnoop : ∀ g' : BELGraph, g'.containsNode (f, ns, nm) = true →
      g'.add_simple_node f ns nm = g' := by
    intro g' h
    unfold BELGraph.add_simple_node
    rw [if_pos h]
  have hnodes : dictNodup g.nodes = true := (wfGraph_parts g hwf).1
  refine ⟨?_, hnoop _ (add_simple_node_contains g f ns nm), hnoop, ?_⟩
  · unfold BELGraph.add_simple_node
    by_cases h : g.containsNode (f, ns, nm) = true
    · rw [if_pos h]
      exact countKey_one _ _ hnodes h
    · rw [if_neg h]
      unfold BELGraph.add_node
      rw [if_neg h]
      exact countKey_one _ _ (dictNodup_dictSet _ _ _ hnodes) (dictHas_dictSet_self _ _ _)
  · intro lbl
    exact hnoop _ (set_node_label_contains _ (f, ns, nm) lbl (f, ns, nm)
      (add_simple_node_contains g f ns nm))

/-- Witness for **C7** on the empty graph. -/
theorem claim_C7_add_simple_node_idempotent_witness :
    wfGraph BELGraph.empty = true ∧
      (countKey (BELGraph.empty.add_simple_node "Protein" "HGNC" "A").nodes
          ("Protein", "HGNC", "A") = 1 ∧
        (BELGraph.empty.add_simple_node "Protein" "HGNC" "A").add_simple_node
            "Protein" "HGNC" "A" =
          BELGraph.empty.add_simple_node "Protein" "HGNC" "A" ∧
        (∀ g' : BELGraph, g'.containsNode ("Protein", "HGNC", "A") = true →
          g'.add_simple_node "Protein" "HGNC" "A" = g') ∧
        (∀ lbl : String,
          ((BELGraph.empty.add_simple_node "Protein" "HGNC" "A").set_node_label
              ("Protein", "HGNC", "A") lbl).add_simple_node "Protein" "HGNC" "A"
            = (BELGraph.empty.add_simple_node "Protein" "HGNC" "A").set_node_label
                ("Protein", "HGNC", "A") lbl)) :=
  ⟨by decide,
    claim_C7_add_simple_node_idempotent BELGraph.empty "Protein" "HGNC" "A" (by decide)⟩

/-- **C9**.  Immediately after constructing a graph with no initial data,
the document-metadata registry, the three namespace registries, the three
annotation registries and the local annotation-list registry are all
present as empty mappings (not absent), and the warning log is present and
empty. -/
theorem claim_C9_fresh_graph_registries :
    dictGet BELGraph.empty.graphAttrs GRAPH_METADATA = some (Value.vdict []) ∧
      dictGet BELGraph.empty.graphAttrs GRAPH_NAMESPACE_URL = some (Value.vdict []) ∧
      dictGet BELGraph.empty.graphAttrs GRAPH_NAMESPACE_OWL = some (Value.vdict []) ∧
      dictGet BELGraph.empty.graphAttrs GRAPH_NAMESPACE_PATTERN = some (Value.vdict []) ∧
      dictGet BELGraph.empty.graphAttrs GRAPH_ANNOTATION_URL = some (Value.vdict []) ∧
      dictGet BELGraph.empty.graphAttrs GRAPH_ANNOTATION_OWL = some (Value.vdict []) ∧
      dictGet BELGraph.empty.graphAttrs GRAPH_ANNOTATION_PATTERN = some (Value.vdict []) ∧
      dictGet BELGraph.empty.graphAttrs GRAPH_ANNOTATION_LIST = some (Value.vdict []) ∧
      BELGraph.empty.warnings = [] := by
  decide

/-- **C10**.  `add_warning` appends exactly one 4-tuple to the warning log
and leaves every other part of the graph unchanged; when the context is
omitted (`none`), the stored fourth component is the empty mapping, so
every log entry's context component is a mapping. -/
theorem claim_C10_add_warning (g : BELGraph) (ln : Nat) (line exc : String)
    (ctx : Option Attrs) :
    (g.add_warning ln line exc ctx).warnings =
        g.warnings ++ [(ln, line, exc, ctx.getD [])] ∧
      (g.add_warning ln line exc ctx).warnings.length = g.warnings.length + 1 ∧
      (g.add_warning ln line exc ctx).nodes = g.nodes ∧
      (g.add_warning ln line exc ctx).graphAttrs = g.graphAttrs ∧
      (g.add_warning ln line exc ctx).hasSingletonTerms = g.hasSingletonTerms ∧
      (ctx = none → ctx.getD [] = ([] : Attrs)) := by
  refine ⟨rfl, ?_, rfl, rfl, rfl, ?_⟩
  · unfold BELGraph.add_warning
    dsimp only
    rw [List.length_append]
    rfl
  · intro hc
    rw [hc]
    rfl

/-- Witness for **C10** with an omitted context on a concrete graph. -/
theorem claim_C10_add_warning_witness :
    (BELGraph.empty.add_warning 3 "bad line" "NakedNameWarning" none).warnings =
        BELGraph.empty.warnings ++ [(3, "bad line", "NakedNameWarning", [])] ∧
      (BELGraph.empty.add_warning 3 "bad line" "NakedNameWarning" none).warnings.length =
        BELGraph.empty.warnings.length + 1 ∧
      (BELGraph.empty.add_warning 3 "bad line" "NakedNameWarning" none).nodes =
        BELGraph.empty.nodes ∧
      (BELGraph.empty.add_warning 3 "bad line" "NakedNameWarning" none).graphAttrs =
        BELGraph.empty.graphAttrs ∧
      (BELGraph.empty.add_warning 3 "bad line" "NakedNameWarning" none).hasSingletonTerms =
        BELGraph.empty.hasSingletonTerms ∧
      ((none : Option Attrs) = none → (none : Option Attrs).getD [] = ([] : Attrs)) :=
  claim_C10_add_warning BELGraph.empty 3 "bad line" "NakedNameWarning" none

/-! ## Shape lemmas for the date sanitizer -/

theorem year4_spec (y yy : List Char) (h : year4 y = some yy) :
    yy = y ∧ y.length = 4 ∧ y.all Char.isDigit = true := by
  unfold year4 at h
  split at h
  · rename_i hcond
    rw [Bool.and_eq_true] at hcond
    cases h
    exact ⟨rfl, by simpa using hcond.1, hcond.2⟩
  · exact Option.noConfusion h

theorem month2_spec (t mm : List Char) (h : month2 t = some mm) :
    ∃ c1 c2, mm = [c1, c2] ∧ c1.isDigit = true ∧ c2.isDigit = true := by
  unfold month2 at h
  split at h <;> first
    | (cases h; exact ⟨_, _, rfl, by decide, by decide⟩)
    | exact Option.noConfusion h

theorem season2_spec (t mm : List Char) (h : season2 t = some mm) :
    ∃ c1 c2, mm = [c1, c2] ∧ c1.isDigit = true ∧ c2.isDigit = true := by
  unfold season2 at h
  split at h <;> first
    | (cases h; exact ⟨_, _, rfl, by decide, by decide⟩)
    | exact Option.noConfusion h

theorem day2_spec (t dd : List Char) (h : day2 t = some dd) :
    ∃ c1 c2, dd = [c1, c2] ∧ c1.isDigit = true ∧ c2.isDigit = true := by
  unfold day2 at h
  split at h
  · rename_i c
    split at h
    · rename_i hc
      cases h
      exact ⟨'0', c, rfl, by decide, hc⟩
    · exact Option.noConfusion h
  · rename_i c1 c2
    split at h
    · rename_i hc
      rw [Bool.and_eq_true] at hc
      cases h
      exact ⟨c1, c2, rfl, hc.1, hc.2⟩
    · exact Option.noConfusion h
  · exact Option.noConfusion h

theorem triple_eq_elim {A B C : Type} {a x : A} {b y : B} {c z : C}
    (h : (a, b, c) = (x, y, z)) : a = x ∧ b = y ∧ c = z := by
  injection h with h1 h2
  injection h2 with h2 h3
  exact ⟨h1, h2, h3⟩

theorem monthish_spec (t mm : List Char) (h : monthish t = some mm) :
    ∃ c1 c2, mm = [c1, c2] ∧ c1.isDigit = true ∧ c2.isDigit = true := by
  unfold monthish at h
  cases hmm : month2 t with
  | some mm1 =>
      rw [hmm] at h
      have h' : some mm1 = some mm := h
      injection h' with h'
      exact h' ▸ month2_spec t mm1 hmm
  | none =>
      rw [hmm] at h
      have h' : (match splitChar '-' t with
        | [m1, m2] => (month2 m1).bind fun mm1 => (month2 m2).map fun _ => mm1
        | _ => season2 t) = some mm := h
      generalize hsp : splitChar '-' t = toks at h'
      rcases toks with _ | ⟨m1, _ | ⟨m2, _ | ⟨m3, rest⟩⟩⟩
      · exact season2_spec t mm h'
      · exact season2_spec t mm h'
      · have h2 : ((month2 m1).bind fun mm1 => (month2 m2).map fun _ => mm1)
            = some mm := h'
        rw [Option.bind_eq_some] at h2
        obtain ⟨mm1, hm1, h2⟩ := h2
        rw [Option.map_eq_some'] at h2
        obtain ⟨mm2, hm2, rfl⟩ := h2
        exact month2_spec m1 mm1 hm1
      · exact season2_spec t mm h'

theorem dayish_spec (t dd : List Char) (h : dayish t = some dd) :
    ∃ c1 c2, dd = [c1, c2] ∧ c1.isDigit = true ∧ c2.isDigit = true := by
  unfold dayish at h
  generalize hsp : splitChar '-' t = toks at h
  rcases toks with _ | ⟨d1, _ | ⟨d2, _ | ⟨d3, rest⟩⟩⟩
  · exact Option.noConfusion h
  · exact day2_spec d1 dd h
  · have h2 : ((day2 d1).bind fun dd1 => (day2 d2).map fun _ => dd1) = some dd := h
    rw [Option.bind_eq_some] at h2
    obtain ⟨dd1, hd1, h2⟩ := h2
    rw [Option.map_eq_some'] at h2
    obtain ⟨dd2, hd2, rfl⟩ := h2
    exact day2_spec d1 dd1 hd1
  · exact Option.noConfusion h

theorem sanitize_core_norm (l : List Char) (y m d : List Char)
    (h : sanitize_core l = some (y, m, d)) :
    (y.length = 4 ∧ y.all Char.isDigit = true) ∧
      (∃ c1 c2, m = [c1, c2] ∧ c1.isDigit = true ∧ c2.isDigit = true) ∧
      (∃ c1 c2, d = [c1, c2] ∧ c1.isDigit = true ∧ c2.isDigit = true) := by
  unfold sanitize_core at h
  generalize hsp : splitChar ' ' l = toks at h
  rcases toks with _ | ⟨y0, _ | ⟨t1, _ | ⟨t2, _ | ⟨t3, _ | ⟨t4, rest⟩⟩⟩⟩⟩
  · exact Option.noConfusion h
  · have h' : (year4 y0).map (fun yy => (yy, ['0', '1'], ['0', '1']))
        = some (y, m, d) := h
    rw [Option.map_eq_some'] at h'
    obtain ⟨yy, hy, heq⟩ := h'
    obtain ⟨e1, e2, e3⟩ := triple_eq_elim heq
    subst e1
    subst e2
    subst e3
    obtain ⟨hyy, hlen, hdig⟩ := year4_spec y0 yy hy
    exact ⟨hyy ▸ ⟨hlen, hdig⟩, ⟨'0', '1', rfl, by decide, by decide⟩,
      ⟨'0', '1', rfl, by decide, by decide⟩⟩
  · have h' : ((year4 y0).bind fun yy =>
        (monthish t1).map fun mm => (yy, mm, ['0', '1'])) = some (y, m, d) := h
    rw [Option.bind_eq_some] at h'
    obtain ⟨yy, hy, h'⟩ := h'
    rw [Option.map_eq_some'] at h'
    obtain ⟨mm, hm, heq⟩ := h'
    obtain ⟨e1, e2, e3⟩ := triple_eq_elim heq
    subst e1
    subst e2
    subst e3
    obtain ⟨hyy, hlen, hdig⟩ := year4_spec y0 yy hy
    exact ⟨hyy ▸ ⟨hlen, hdig⟩, monthish_spec t1 mm hm,
      ⟨'0', '1', rfl, by decide, by decide⟩⟩
  · have h' : ((year4 y0).bind fun yy => (month2 t1).bind fun mm =>
        (dayish t2).map fun dd => (yy, mm, dd)) = some (y, m, d) := h
    rw [Option.bind_eq_some] at h'
    obtain ⟨yy, hy, h'⟩ := h'
    rw [Option.bind_eq_some] at h'
    obtain ⟨mm, hm, h'⟩ := h'
    rw [Option.map_eq_some'] at h'
    obtain ⟨dd, hd, heq⟩ := h'
    obtain ⟨e1, e2, e3⟩ := triple_eq_elim heq
    subst e1
    subst e2
    subst e3
    obtain ⟨hyy, hlen, hdig⟩ := year4_spec y0 yy hy
    exact ⟨hyy ▸ ⟨hlen, hdig⟩, month2_spec t1 mm hm, dayish_spec t2 dd hd⟩
  · have h' : ((year4 y0).bind fun yy => (month2 t1).bind fun mm =>
        match splitChar '-' t2 with
        | [d1, m2] =>
            (day2 d1).bind fun dd1 =>
              (month2 m2).bind fun _ => (day2 t3).map fun _ => (yy, mm, dd1)
        | _ => none) = some (y, m, d) := h
    rw [Option.bind_eq_some] at h'
    obtain ⟨yy, hy, h'⟩ := h'
    rw [Option.bind_eq_some] at h'
    obtain ⟨mm, hm, h'⟩ := h'
    generalize hsp2 : splitChar '-' t2 = toks2 at h'
    rcases toks2 with _ | ⟨d1, _ | ⟨m2, _ | ⟨z3, rest2⟩⟩⟩
    · exact Option.noConfusion h'
    · exact Option.noConfusion h'
    · have h2 : ((day2 d1).bind fun dd1 =>
          (month2 m2).bind fun _ => (day2 t3).map fun _ => (yy, mm, dd1))
            = some (y, m, d) := h'
      rw [Option.bind_eq_some] at h2
      obtain ⟨dd1, hd1, h2⟩ := h2
      rw [Option.bind_eq_some] at h2
      obtain ⟨mm2, hm2, h2⟩ := h2
      rw [Option.map_eq_some'] at h2
      obtain ⟨dd2, hd2, heq⟩ := h2
      obtain ⟨e1, e2, e3⟩ := triple_eq_elim heq
      subst e1
      subst e2
      subst e3
      obtain ⟨hyy, hlen, hdig⟩ := year4_spec y0 yy hy
      exact ⟨hyy ▸ ⟨hlen, hdig⟩, month2_spec t1 mm hm, day2_spec d1 dd1 hd1⟩
    · exact Option.noConfusion h'
  · exact Option.noConfusion h

theorem isNormDate_parts (y m d : List Char)
    (hy : y.length = 4 ∧ y.all Char.isDigit = true)
    (hm : ∃ c1 c2, m = [c1, c2] ∧ c1.isDigit = true ∧ c2.isDigit = true)
    (hd : ∃ c1 c2, d = [c1, c2] ∧ c1.isDigit = true ∧ c2.isDigit = true) :
    isNormDate (String.mk (y ++ '-' :: m ++ '-' :: d)) = true := by
  obtain ⟨hylen, hydig⟩ := hy
  obtain ⟨m1, m2, rfl, hm1, hm2⟩ := hm
  obtain ⟨d1, d2, rfl, hd1, hd2⟩ := hd
  match y, hylen with
  | [y1, y2, y3, y4], _ =>
      simp only [List.all_cons, List.all_nil, Bool.and_eq_true] at hydig
      obtain ⟨h1, h2, h3, h4, _⟩ := hydig
      show isNormDate (String.mk [y1, y2, y3, y4, '-', m1, m2, '-', d1, d2]) = true
      simp [isNormDate, h1, h2, h3, h4, hm1, hm2, hd1, hd2]

/-- The failure-or-normalized disjunction for the sanitizer on an arbitrary
string. -/
theorem sanitize_date_total (s : String) :
    sanitize_date s = none ∨
      ∃ r, sanitize_date s = some r ∧ isNormDate r = true := by
  unfold sanitize_date
  cases hc : sanitize_core s.data with
  | none =>
      left
      rfl
  | some t =>
      right
      obtain ⟨y, m, d⟩ := t
      refine ⟨String.mk (y ++ '-' :: m ++ '-' :: d), rfl, ?_⟩
      obtain ⟨hy, hm, hd⟩ := sanitize_core_norm s.data y m d hc
      exact isNormDate_parts y m d hy hm hd

/-- **C4**.  The date sanitizer is a total function from arbitrary strings
to either a normalized `YYYY-MM-DD` string or the failure sentinel
(`none`), never throwing; and it maps each of the spec's test inputs to
exactly the stated output. -/
theorem claim_C4_sanitize_date :
    sanitize_date "2012 Dec 19" = some "2012-12-19" ∧
      sanitize_date "2012 Dec" = some "2012-12-01" ∧
      sanitize_date "2012" = some "2012-01-01" ∧
      sanitize_date "2012 Oct-Dec" = some "2012-10-01" ∧
      sanitize_date "2012 Spring" = some "2012-03-01" ∧
      sanitize_date "2012 Dec 12-15" = some "2012-12-12" ∧
      sanitize_date "2005 Jan 29-Feb 4" = some "2005-01-29" ∧
      sanitize_date "2012 Early Spring" = none ∧
      (∀ s : String, sanitize_date s = none ∨
        ∃ r, sanitize_date s = some r ∧ isNormDate r = true) :=
  ⟨by decide, by decide, by decide, by decide, by decide, by decide, by decide,
    by decide, sanitize_date_total⟩

/-- Witness for **C5** on a concrete graph and constraint set. -/
theorem claim_C5_filtered_iteration_witness :
    (∀ e, e ∈ exCited.edges_iter [(CITATION, Value.vstr "12345")] ↔
        e ∈ exCited.edgesList ∧
          subdict_matches e.2.2.2 [(CITATION, Value.vstr "12345")] = true) ∧
      (∀ nd, nd ∈ exCited.nodes_iter [(CITATION, Value.vstr "12345")] ↔
        nd ∈ exCited.nodesList ∧
          subdict_matches nd.2 [(CITATION, Value.vstr "12345")] = true) ∧
      exCited.edges_iter [] = exCited.edgesList ∧
      exCited.nodes_iter [] = exCited.nodesList ∧
      (∀ d : Attrs, subdict_matches d [(CITATION, Value.vstr "12345")] = true ↔
        ∀ kv ∈ [(CITATION, Value.vstr "12345")], ∃ v',
          dictGet d kv.1 = some v' ∧ valueEq kv.2 v' = true) :=
  claim_C5_filtered_iteration exCited [(CITATION, Value.vstr "12345")]
